import Mathlib

set_option maxRecDepth 100000

/-!
Verification development for the Z2API translation proxy.

The definitions below are a shallow embedding of the core of the
repository: the SSE stream decoding loops of `proxy_handler.py`
(`process_streaming_response` and the inline loop of
`stream_proxy_response`), the content transformer `transform_content`,
the response assembly paths (`non_stream_response` and the
non-streaming branch of `handle_chat_completion`), and the credential
pool `cookie_manager.py`.

Text is modelled as `List Char`.  Python regular-expression operations
used by the source are embedded as explicit scanning functions; loops
whose recursion is not structural take a fuel argument (with fuel at
least the input length they compute the loop exactly).  JSON values are
modelled by an inductive `Json`; `json.loads` is modelled by a
recursive-descent parser `json_loads` (integers only: payloads with
fractional numbers are treated as unparseable, nothing in the
verification depends on numeric payloads).  Dictionary lookups on
non-object values, which would raise in Python, are modelled as absent
keys; no theorem below depends on such records.
-/

/-- Python `str.strip` whitespace (the ASCII part of `\s`). -/
def pySpace (c : Char) : Bool :=
  c = ' ' || c = '\t' || c = '\n' || c = '\r' || c = '\x0b' || c = '\x0c'

/-- Python `str.strip`: drop whitespace from both ends. -/
def pyStrip (s : List Char) : List Char :=
  ((s.dropWhile pySpace).reverse.dropWhile pySpace).reverse

/-- `beginsWith p s` is true when `p` is a prefix of `s` (Python `startswith`). -/
def beginsWith : List Char → List Char → Bool
  | [], _ => true
  | _ :: _, [] => false
  | p :: ps, c :: cs => if p = c then beginsWith ps cs else false

/-- JSON values as produced by `json.loads` (integer numerics only). -/
inductive Json where
  | null
  | bool (b : Bool)
  | num (n : Int)
  | str (s : String)
  | arr (elems : List Json)
  | obj (fields : List (String × Json))

/-- First binding of a key in an object's field list (parsed objects are
key-deduplicated, so first = only). -/
def jlookup (k : String) : List (String × Json) → Option Json
  | [] => none
  | (k', v) :: rest => if k' = k then some v else jlookup k rest

/-- `d.get(k)` returning `none` when `d` is not an object or lacks `k`. -/
def jget? (j : Json) (k : String) : Option Json :=
  match j with
  | .obj kvs => jlookup k kvs
  | _ => none

/-- `d.get(k, default)`. -/
def jgetD (j : Json) (k : String) (d : Json) : Json :=
  (jget? j k).getD d

/-- `d.get(k)` with Python's `None` modelled as `Json.null`. -/
def jget (j : Json) (k : String) : Json :=
  jgetD j k .null

/-- Python truthiness of a JSON value. -/
def truthy : Json → Bool
  | .null => false
  | .bool b => b
  | .num n => n ≠ 0
  | .str s => s ≠ ""
  | .arr xs => !xs.isEmpty
  | .obj kvs => !kvs.isEmpty

/-- Python `a or b` on JSON values. -/
def pyOr (a b : Json) : Json :=
  if truthy a then a else b

/-- String content of a JSON value (claims only instantiate string fields). -/
def asStr : Json → String
  | .str s => s
  | _ => ""

/-- `d.pop(k, None)` on an object: remove the binding of `k`. -/
def removeKey (j : Json) (k : String) : Json :=
  match j with
  | .obj kvs => .obj (kvs.filter (fun kv => !(kv.1 = k)))
  | other => other

/-- Replace the value bound to `k` (models in-place mutation of a nested dict). -/
def setKey (j : Json) (k : String) (v : Json) : Json :=
  match j with
  | .obj kvs => .obj (kvs.map (fun kv => if kv.1 = k then (k, v) else kv))
  | other => other

/-! JSON parser (`json.loads`). -/

def jsonWs (c : Char) : Bool :=
  c = ' ' || c = '\t' || c = '\n' || c = '\r'

def skipWs (s : List Char) : List Char :=
  s.dropWhile jsonWs

def hexVal? (c : Char) : Option Nat :=
  if '0' ≤ c ∧ c ≤ '9' then some (c.toNat - '0'.toNat)
  else if 'a' ≤ c ∧ c ≤ 'f' then some (c.toNat - 'a'.toNat + 10)
  else if 'A' ≤ c ∧ c ≤ 'F' then some (c.toNat - 'A'.toNat + 10)
  else none

def escChar? (c : Char) : Option Char :=
  if c = '"' then some '"'
  else if c = '\\' then some '\\'
  else if c = '/' then some '/'
  else if c = 'b' then some '\x08'
  else if c = 'f' then some '\x0c'
  else if c = 'n' then some '\n'
  else if c = 'r' then some '\r'
  else if c = 't' then some '\t'
  else none

/-- Body of a JSON string after the opening quote: content and remainder. -/
def parseStringBody : List Char → Option (List Char × List Char)
  | [] => none
  | '"' :: rest => some ([], rest)
  | '\\' :: 'u' :: h1 :: h2 :: h3 :: h4 :: rest =>
    match hexVal? h1, hexVal? h2, hexVal? h3, hexVal? h4 with
    | some a, some b, some c, some d =>
      let n := ((a * 16 + b) * 16 + c) * 16 + d
      if n.isValidChar then
        match parseStringBody rest with
        | some (cs, r) => some (Char.ofNat n :: cs, r)
        | none => none
      else none
    | _, _, _, _ => none
  | '\\' :: e :: rest =>
    match escChar? e with
    | some c =>
      match parseStringBody rest with
      | some (cs, r) => some (c :: cs, r)
      | none => none
    | none => none
  | c :: rest =>
    if c.toNat < 32 then none
    else
      match parseStringBody rest with
      | some (cs, r) => some (c :: cs, r)
      | none => none

/-- Consume decimal digits. -/
def takeDigits (s : List Char) : List Char × List Char :=
  (s.takeWhile Char.isDigit, s.dropWhile Char.isDigit)

def digitsToNat (ds : List Char) : Nat :=
  ds.foldl (fun acc c => acc * 10 + (c.toNat - '0'.toNat)) 0

/-- JSON integer literal; fails on fraction/exponent or malformed input. -/
def parseIntLex (s : List Char) : Option (Int × List Char) :=
  let (neg, s1) := match s with
    | '-' :: t => (true, t)
    | _ => (false, s)
  let (ds, rest) := takeDigits s1
  match ds with
  | [] => none
  | d :: ds' =>
    if d = '0' ∧ ds' ≠ [] then none
    else
      match rest with
      | '.' :: _ => none
      | 'e' :: _ => none
      | 'E' :: _ => none
      | _ =>
        let n : Int := Int.ofNat (digitsToNat (d :: ds'))
        some (if neg then -n else n, rest)

/-- Insert a key into an object, Python-dict style (first position kept,
value overwritten). -/
def objInsert (acc : List (String × Json)) (k : String) (v : Json) :
    List (String × Json) :=
  if acc.any (fun kv => kv.1 = k) then
    acc.map (fun kv => if kv.1 = k then (k, v) else kv)
  else acc ++ [(k, v)]

mutual

def parseVal : Nat → List Char → Option (Json × List Char)
  | 0, _ => none
  | Nat.succ f, s =>
    match skipWs s with
    | [] => none
    | c :: rest =>
      if c = '{' then
        match skipWs rest with
        | '}' :: r => some (.obj [], r)
        | r => parseFields f r []
      else if c = '[' then
        match skipWs rest with
        | ']' :: r => some (.arr [], r)
        | r => parseElems f r []
      else if c = '"' then
        match parseStringBody rest with
        | some (cs, r) => some (.str (String.mk cs), r)
        | none => none
      else if c = 't' then
        match rest with
        | 'r' :: 'u' :: 'e' :: r => some (.bool true, r)
        | _ => none
      else if c = 'f' then
        match rest with
        | 'a' :: 'l' :: 's' :: 'e' :: r => some (.bool false, r)
        | _ => none
      else if c = 'n' then
        match rest with
        | 'u' :: 'l' :: 'l' :: r => some (.null, r)
        | _ => none
      else
        match parseIntLex (c :: rest) with
        | some (n, r) => some (.num n, r)
        | none => none

def parseFields : Nat → List Char → List (String × Json) →
    Option (Json × List Char)
  | 0, _, _ => none
  | Nat.succ f, s, acc =>
    match skipWs s with
    | '"' :: rest =>
      match parseStringBody rest with
      | some (kcs, r) =>
        match skipWs r with
        | ':' :: r2 =>
          match parseVal f r2 with
          | some (v, r3) =>
            let acc' := objInsert acc (String.mk kcs) v
            match skipWs r3 with
            | ',' :: r4 => parseFields f r4 acc'
            | '}' :: r4 => some (.obj acc', r4)
            | _ => none
          | none => none
        | _ => none
      | none => none
    | _ => none

def parseElems : Nat → List Char → List Json → Option (Json × List Char)
  | 0, _, _ => none
  | Nat.succ f, s, acc =>
    match parseVal f s with
    | some (v, r) =>
      match skipWs r with
      | ',' :: r2 => parseElems f r2 (acc ++ [v])
      | ']' :: r2 => some (.arr (acc ++ [v]), r2)
      | _ => none
    | none => none

end

/-- `json.loads`: parse a full JSON document (integer numerics only). -/
def json_loads (s : List Char) : Option Json :=
  match parseVal (s.length + 1) s with
  | some (v, r) => if skipWs r = [] then some v else none
  | none => none

/-! ## The SSE line machine

Both stream-consuming loops in `proxy_handler.py` share the same shape:
append each arriving text chunk to a buffer, split off every complete
line, and act on each line; empty chunks are skipped; a `return` (on the
`[DONE]` sentinel) or a raised exception stops consumption; a partial
line left in the buffer when the source ends is discarded.  The machine
below captures that loop, parameterised by the per-line action. -/

/-- Result of acting on one complete line. -/
inductive StepRes (α ω : Type) where
  | cont (out : List α)
  | stop (out : List α) (res : ω)

/-- Split a text into its complete (newline-terminated) lines and the
trailing partial line, as the `while "\n" in buffer` loop does. -/
def splitLines : List Char → List (List Char) × List Char
  | [] => ([], [])
  | c :: rest =>
    if c = '\n' then
      let (ls, r) := splitLines rest
      ([] :: ls, r)
    else
      match splitLines rest with
      | (l :: ls, r) => ((c :: l) :: ls, r)
      | ([], r) => ([], c :: r)

/-- Act on a list of complete lines in order; a `stop` discards the
remaining lines (the loop returns). -/
def runLines (h : List Char → StepRes α ω) : List α → List (List Char) →
    List α × Option ω
  | out, [] => (out, none)
  | out, l :: ls =>
    match h l with
    | .cont xs => runLines h (out ++ xs) ls
    | .stop xs w => (out ++ xs, some w)

/-- Machine state: still consuming (with pending partial line), or stopped. -/
inductive MState (α ω : Type) where
  | run (out : List α) (buf : List Char)
  | halt (out : List α) (res : ω)

/-- Feed one arriving chunk to the machine (`if not chunk: continue`,
then the line-splitting loop). -/
def feed (h : List Char → StepRes α ω) : MState α ω → List Char → MState α ω
  | .halt o w, _ => .halt o w
  | .run o buf, c =>
    if c = [] then .run o buf
    else
      let (ls, r) := splitLines (buf ++ c)
      match runLines h o ls with
      | (o', none) => .run o' r
      | (o', some w) => .halt o' w

/-- Drive the machine over a whole sequence of arriving chunks.  The
trailing partial line is discarded; the second component tells whether
the loop stopped itself (`some`) or the source ended (`none`). -/
def run_machine (h : List Char → StepRes α ω) (pieces : List (List Char)) :
    List α × Option ω :=
  match pieces.foldl (feed h) (.run [] []) with
  | .run o _ => (o, none)
  | .halt o w => (o, some w)

/-! ## The two per-line actions of `proxy_handler.py` -/

/-- Outcome of `process_streaming_response`: sentinel reached, or an
upstream error raised (`HTTPException` detail string). -/
inductive DecOutcome where
  | done
  | err (detail : String)

/-- `parsed.get("error") or parsed.get("data", {}).get("error")`. -/
def hasErrorIndicator (parsed : Json) : Bool :=
  truthy (jget parsed "error") || truthy (jget (jgetD parsed "data" (.obj [])) "error")

/-- The error-detail extraction of `process_streaming_response`. -/
def upstreamErrorDetail (parsed : Json) : Json :=
  pyOr (jget (jgetD parsed "error" (.obj [])) "detail")
    (pyOr (jget (jgetD (jgetD parsed "data" (.obj [])) "error" (.obj [])) "detail")
      (.str "Unknown error from upstream"))

/-- `if parsed.get("data"): parsed["data"].pop("edit_index", None); ...`. -/
def stripEdit (parsed : Json) : Json :=
  if truthy (jget parsed "data") then
    setKey parsed "data"
      (removeKey (removeKey (jget parsed "data") "edit_index") "edit_content")
  else parsed

/-- Per-line action of `process_streaming_response` (lines 222-259 of
`proxy_handler.py`): strip, require the `data: ` prefix, detect the
`[DONE]` sentinel, parse JSON (malformed lines skipped), raise on an
error indicator, strip the edit fields and yield the record. -/
def decodeStep (line : List Char) : StepRes Json DecOutcome :=
  let l := pyStrip line
  if beginsWith "data: ".data l then
    let payload := pyStrip (l.drop 6)
    if payload = "[DONE]".data then .stop [] .done
    else
      match json_loads payload with
      | none => .cont []
      | some parsed =>
        if hasErrorIndicator parsed then
          .stop [] (.err ("Upstream error: " ++ asStr (upstreamErrorDetail parsed)))
        else .cont [stripEdit parsed]
  else .cont []

/-- The stream decoder `process_streaming_response`, driven over the
arriving chunks of the upstream body. -/
def process_streaming_response (pieces : List (List Char)) :
    List Json × Option DecOutcome :=
  run_machine decodeStep pieces

/-! ## The markup transformer `transform_content`

The Python function uses `re` operations; each is embedded as an
explicit left-to-right scan.  Scans that jump past a removed or
replaced span take a fuel argument (any fuel at least the input length
gives the same value; the wrappers fix fuel = length). -/

/-- Match `<details[^>]*>` at the head: skip the literal `<details`,
then everything up to and including the first `>`.  Returns the
remainder after the tag. -/
def skipToGt : List Char → Option (List Char)
  | [] => none
  | c :: t => if c = '>' then some t else skipToGt t

def matchOpenAt (s : List Char) : Option (List Char) :=
  if beginsWith "<details".data s then skipToGt (s.drop 8) else none

/-- Find the first `</details>` and return the remainder after it
(the lazy `.*?</details>` of the first `re.sub`). -/
def findClose : List Char → Option (List Char)
  | [] => none
  | c :: t =>
    if beginsWith "</details>".data (c :: t) then some ((c :: t).drop 10)
    else findClose t

/-- `re.sub(r"<details[^>]*>.*?</details>", "", content)`:
remove every complete details block, scanning left to right. -/
def sub1F : Nat → List Char → List Char
  | 0, l => l
  | _ + 1, [] => []
  | f + 1, c :: rest =>
    match matchOpenAt (c :: rest) with
    | some afterTag =>
      match findClose afterTag with
      | some afterClose => sub1F f afterClose
      | none => c :: sub1F f rest
    | none => c :: sub1F f rest

def sub1 (l : List Char) : List Char := sub1F l.length l

/-- The lookahead `(?=\s*[A-Z]|\s*\d|\s*$)`: after optional whitespace
comes an uppercase letter, a digit, or the end of the text. -/
def lookahead (s : List Char) : Bool :=
  match s.dropWhile pySpace with
  | [] => true
  | c :: _ => c.isUpper || c.isDigit

/-- The lazy `.*?` before the lookahead: consume as little as possible
until the lookahead holds (it always holds at the end of the text). -/
def lazyToLookahead : List Char → List Char
  | [] => []
  | c :: t => if lookahead (c :: t) then c :: t else lazyToLookahead t

/-- `re.sub(r"<details[^>]*>.*?(?=\s*[A-Z]|\s*\d|\s*$)", "", content)`:
strip any remaining opening tag through to the answer boundary. -/
def sub2F : Nat → List Char → List Char
  | 0, l => l
  | _ + 1, [] => []
  | f + 1, c :: rest =>
    match matchOpenAt (c :: rest) with
    | some afterTag => sub2F f (lazyToLookahead afterTag)
    | none => c :: sub2F f rest

def sub2 (l : List Char) : List Char := sub2F l.length l

/-- `re.sub(r"<details[^>]*>", "<think>", content)`. -/
def renameOpenF : Nat → List Char → List Char
  | 0, l => l
  | _ + 1, [] => []
  | f + 1, c :: rest =>
    match matchOpenAt (c :: rest) with
    | some afterTag => "<think>".data ++ renameOpenF f afterTag
    | none => c :: renameOpenF f rest

def renameOpen (l : List Char) : List Char := renameOpenF l.length l

/-- `content.replace("</details>", "</think>")`. -/
def replaceCloseF : Nat → List Char → List Char
  | 0, l => l
  | _ + 1, [] => []
  | f + 1, c :: rest =>
    if beginsWith "</details>".data (c :: rest) then
      "</think>".data ++ replaceCloseF f ((c :: rest).drop 10)
    else c :: replaceCloseF f rest

def replaceClose (l : List Char) : List Char := replaceCloseF l.length l

/-- Find the first `</summary>` and return the remainder after it. -/
def findCloseSummary : List Char → Option (List Char)
  | [] => none
  | c :: t =>
    if beginsWith "</summary>".data (c :: t) then some ((c :: t).drop 10)
    else findCloseSummary t

/-- `re.sub(r"<summary>.*?</summary>", "", content)`. -/
def removeSummaryF : Nat → List Char → List Char
  | 0, l => l
  | _ + 1, [] => []
  | f + 1, c :: rest =>
    if beginsWith "<summary>".data (c :: rest) then
      match findCloseSummary ((c :: rest).drop 9) with
      | some afterClose => removeSummaryF f afterClose
      | none => c :: removeSummaryF f rest
    else c :: removeSummaryF f rest

def removeSummary (l : List Char) : List Char := removeSummaryF l.length l

/-- `pat in s` (Python substring containment). -/
def containsSub (pat : List Char) : List Char → Bool
  | [] => beginsWith pat []
  | c :: t => beginsWith pat (c :: t) || containsSub pat t

/-- Split at the first occurrence of `pat`: `s = before ++ rest` with
`rest` starting at the match (`s.find(pat)`). -/
def splitAtSub (pat : List Char) : List Char → Option (List Char × List Char)
  | [] => if beginsWith pat [] then some ([], []) else none
  | c :: t =>
    if beginsWith pat (c :: t) then some ([], c :: t)
    else
      match splitAtSub pat t with
      | some (a, b) => some (c :: a, b)
      | none => none

/-- `re.search(r"\n\s*[A-Z0-9]", s)`: does a newline followed by
optional whitespace and an uppercase letter or digit start here? -/
def boundaryAfter (t : List Char) : Bool :=
  match t.dropWhile pySpace with
  | [] => false
  | d :: _ => d.isUpper || d.isDigit

/-- Split at the first match of `\n\s*[A-Z0-9]`: `s = a ++ b` with `b`
starting at the matched newline. -/
def findBoundary : List Char → Option (List Char × List Char)
  | [] => none
  | c :: t =>
    if c = '\n' && boundaryAfter t then some ([], c :: t)
    else
      match findBoundary t with
      | some (a, b) => some (c :: a, b)
      | none => none

/-- `ProxyHandler.transform_content` (lines 40-97 of `proxy_handler.py`).
`showTags` is `settings.SHOW_THINK_TAGS`. -/
def transform_content (showTags : Bool) (content : List Char) : List Char :=
  if content = [] then content
  else if showTags then
    let c1 := renameOpen content
    let c2 := replaceClose c1
    let c3 := removeSummary c2
    let c4 :=
      if containsSub "<think>".data c3 && !containsSub "</think>".data c3 then
        match splitAtSub "<think>".data c3 with
        | some (pre, tagPost) =>
          match findBoundary tagPost with
          | some (a, b) => pre ++ a ++ "</think>\n".data ++ b
          | none => c3 ++ "</think>".data
        | none => c3
      else c3
    pyStrip c4
  else
    pyStrip (pyStrip (sub2 (sub1 content)))

/-! ## Streaming emission (`stream_proxy_response` / `stream_response`)

Outbound SSE events are modelled at the event level: the JSON
serialisation of an OpenAI chunk and its re-parsing in
`handle_chat_completion` round-trip the delta text exactly, and the
completion id / timestamp fields play no role in any claim. -/

/-- An outbound SSE event: a content chunk (`delta.content`), the
terminal chunk (empty delta, `finish_reason: "stop"`), the `[DONE]`
sentinel, or the error chunk emitted by `stream_response`. -/
inductive StreamEvent where
  | content (text : List Char)
  | terminal
  | doneMark
  | errorEvent (message : String)
deriving DecidableEq, Repr

/-- `data.get("delta_content", "")` as usable text.  Non-string values
(which the Python code would pass to `re.sub`, raising) are modelled as
absent. -/
def deltaContentOf (parsed : Json) : List Char :=
  match jget? (jgetD parsed "data" (.obj [])) "delta_content" with
  | some (.str s) => s.data
  | _ => []

/-- `data.get("phase", "") == "thinking"`. -/
def isThinkingPhase (parsed : Json) : Bool :=
  match jgetD (jgetD parsed "data" (.obj [])) "phase" (.str "") with
  | .str s => s = "thinking"
  | _ => false

/-- The light per-chunk transform used while streaming: tag renaming
only, applied only when thinking is revealed. -/
def streamTransform (showTags : Bool) (delta : List Char) : List Char :=
  if showTags then replaceClose (renameOpen delta) else delta

/-- Per-record emission shared verbatim by `stream_response`
(lines 322-366) and `stream_proxy_response` (lines 576-617): suppress
thinking-phase content when `showTags` is false, emit nothing for an
empty delta, otherwise emit one content chunk. -/
def emitRecord (showTags : Bool) (parsed : Json) : List StreamEvent :=
  let delta := deltaContentOf parsed
  let shouldSend := !(showTags = false && isThinkingPhase parsed)
  if delta ≠ [] ∧ shouldSend then [.content (streamTransform showTags delta)]
  else []

/-- Per-line action of the inline loop of `stream_proxy_response`
(lines 541-620): on `[DONE]` emit the terminal chunk and the sentinel
and return; otherwise parse and emit.  Note: no error-indicator check
and no edit-field stripping here. -/
def proxyStep (showTags : Bool) (line : List Char) : StepRes StreamEvent Unit :=
  let l := pyStrip line
  if beginsWith "data: ".data l then
    let payload := pyStrip (l.drop 6)
    if payload = "[DONE]".data then .stop [.terminal, .doneMark] ()
    else
      match json_loads payload with
      | none => .cont []
      | some parsed => .cont (emitRecord showTags parsed)
  else .cont []

/-- `ProxyHandler.stream_proxy_response` from the arrival of the
upstream body onward: the emitted events, plus whether the `[DONE]`
sentinel was reached (`some ()`) or the upstream closed first (`none`,
in which case nothing further is emitted). -/
def stream_proxy_response (showTags : Bool) (pieces : List (List Char)) :
    List StreamEvent × Option Unit :=
  run_machine (proxyStep showTags) pieces

/-- `ProxyHandler.stream_response` (the superseded streaming assembler):
emits each surviving record of `process_streaming_response`, then the
terminal chunk and sentinel when the decoder finishes — whether by
sentinel or source exhaustion — or a single error chunk if the decoder
raised. -/
def stream_response (showTags : Bool) (pieces : List (List Char)) :
    List StreamEvent :=
  match process_streaming_response pieces with
  | (recs, some (.err d)) => (recs.map (emitRecord showTags)).flatten ++ [.errorEvent d]
  | (recs, _) => (recs.map (emitRecord showTags)).flatten ++ [.terminal, .doneMark]

/-! ## Non-streaming assembly -/

/-- `chunk.get("data", {}).get("phase") == "answer"` (no default:
an absent phase is `None`, which is not `"answer"`). -/
def isAnswerPhase (parsed : Json) : Bool :=
  match jget (jgetD parsed "data" (.obj [])) "phase" with
  | .str s => s = "answer"
  | _ => false

/-- `ProxyHandler.non_stream_response` (lines 399-451, the superseded
aggregator): drive the decoder to completion; fail on a raised upstream
error or on zero chunks; otherwise concatenate the eligible deltas and
apply `transform_content` once. -/
def non_stream_response (showTags : Bool) (pieces : List (List Char)) :
    Except String (List Char) :=
  match process_streaming_response pieces with
  | (_, some (.err d)) => .error d
  | (recs, _) =>
    if recs.isEmpty then .error "No response from upstream"
    else
      let full_content :=
        if showTags then (recs.map deltaContentOf).flatten
        else ((recs.filter (fun r => isAnswerPhase r)).map deltaContentOf).flatten
      .ok (transform_content showTags full_content)

/-- The collection loop of the non-streaming branch of
`handle_chat_completion` (lines 278-291): keep the `delta.content` of
every event that carries a non-empty one. -/
def collectContent (events : List StreamEvent) : List Char :=
  (events.filterMap (fun e =>
    match e with
    | .content c => if c = [] then none else some c
    | _ => none)).flatten

/-- The wired non-streaming path: `handle_chat_completion` with
`stream = false` drains `stream_proxy_response` and joins the collected
contents; it always builds a successful response (`finish_reason`
`"stop"`), with no aggregate transform and no empty-result check. -/
def handle_chat_completion_nonstream (showTags : Bool)
    (pieces : List (List Char)) : List Char :=
  collectContent (stream_proxy_response showTags pieces).1

/-- The aggregate stated by the spec: the Full Transform applied once
to the concatenation, in arrival order, of the `delta_content` of
eligible chunks (phase = answer when thinking is hidden, all chunks
when revealed). -/
def claimAggregate (showTags : Bool) (recs : List Json) : List Char :=
  transform_content showTags
    (((if showTags then recs else recs.filter (fun r => isAnswerPhase r)).map
        deltaContentOf).flatten)

/-! ## Auxiliary predicates for the transform proofs -/

/-- A character that satisfies the lookahead after no whitespace:
whitespace itself, an uppercase letter, or a digit. -/
def lookChar (c : Char) : Bool :=
  pySpace c || c.isUpper || c.isDigit

/-- Does the text contain an occurrence of `<details[^>]*>`? -/
def hasOpen : List Char → Bool
  | [] => false
  | c :: rest => (matchOpenAt (c :: rest)).isSome || hasOpen rest

/-! ## The credential pool (`cookie_manager.py`) -/

/-- State of `CookieManager`: the fixed pool, the rotation cursor and
the failed set. -/
structure CookieManager where
  cookies : List String
  current_index : Nat
  failed_cookies : Finset String

/-- The `while attempts < len(self.cookies)` loop of `get_next_cookie`:
take the cookie at the cursor, advance the cursor modulo the pool size,
return the cookie unless it is marked failed; each failed encounter
consumes one attempt.  Returns the final cursor either way. -/
def getNextLoop (cs : List String) (failed : Finset String) :
    Nat → Nat → Option String × Nat
  | idx, 0 => (none, idx)
  | idx, fuel + 1 =>
    let cookie := cs.getD idx ""
    let idx' := (idx + 1) % cs.length
    if cookie ∈ failed then getNextLoop cs failed idx' fuel
    else (some cookie, idx')

/-- `CookieManager.get_next_cookie` (lines 25-48 of
`cookie_manager.py`): round-robin skipping failed cookies; if every
cookie is failed, clear the failed set and return the first cookie;
`none` only for an empty pool. -/
def get_next_cookie (s : CookieManager) : Option String × CookieManager :=
  if s.cookies.isEmpty then (none, s)
  else
    match getNextLoop s.cookies s.failed_cookies s.current_index s.cookies.length with
    | (some c, idx') => (some c, { s with current_index := idx' })
    | (none, idx') =>
      if s.failed_cookies ≠ ∅ then
        (some (s.cookies.headD ""), { s with current_index := idx', failed_cookies := ∅ })
      else (none, { s with current_index := idx' })

/-- Results of `n` successive `get_next_cookie` calls. -/
def acquireList (s : CookieManager) : Nat → List (Option String)
  | 0 => []
  | n + 1 =>
    let (r, s') := get_next_cookie s
    r :: acquireList s' n

/-! ## Chunking invariance of the line machine -/

theorem splitLines_cons_nl (t : List Char) :
    splitLines ('\n' :: t) = ([] :: (splitLines t).1, (splitLines t).2) := by
  simp [splitLines]

theorem splitLines_cons (c : Char) (t : List Char) (hc : c ≠ '\n') :
    splitLines (c :: t) =
      (match splitLines t with
        | (l :: ls, r) => ((c :: l) :: ls, r)
        | ([], r) => ([], c :: r)) := by
  simp [splitLines, hc]

theorem splitLines_append (x b : List Char) :
    splitLines (x ++ b) =
      ((splitLines x).1 ++ (splitLines ((splitLines x).2 ++ b)).1,
       (splitLines ((splitLines x).2 ++ b)).2) := by
  induction x with
  | nil => simp [splitLines]
  | cons c t ih =>
    by_cases hc : c = '\n'
    · subst hc
      rw [List.cons_append, splitLines_cons_nl, splitLines_cons_nl, ih]
      simp
    · rw [List.cons_append, splitLines_cons c (t ++ b) hc, splitLines_cons c t hc, ih]
      rcases hls : splitLines t with ⟨ls, r⟩
      rcases ls with _ | ⟨l₀, ls₀⟩
      · simp only
        rw [List.cons_append, splitLines_cons c (r ++ b) hc]
        rcases h2 : splitLines (r ++ b) with ⟨ls', r'⟩
        rcases ls' with _ | ⟨l₁, ls₁⟩ <;> simp
      · simp only
        rcases h2 : splitLines (r ++ b) with ⟨ls', r'⟩
        simp

theorem runLines_append (h : List Char → StepRes α ω) (out : List α)
    (ls ls' : List (List Char)) :
    runLines h out (ls ++ ls') =
      match runLines h out ls with
      | (o, none) => runLines h o ls'
      | (o, some w) => (o, some w) := by
  induction ls generalizing out with
  | nil => simp [runLines]
  | cons l t ih =>
    simp only [List.cons_append, runLines]
    cases h l with
    | cont xs => exact ih (out ++ xs)
    | stop xs w => rfl

theorem feed_feed (h : List Char → StepRes α ω) (s : MState α ω)
    (a b : List Char) :
    feed h (feed h s a) b = feed h s (a ++ b) := by
  cases s with
  | halt o w => rfl
  | run o buf =>
    by_cases ha : a = []
    · subst ha; simp [feed]
    · by_cases hb : b = []
      · subst hb
        simp only [List.append_nil, feed, if_neg ha]
        rcases hsl : splitLines (buf ++ a) with ⟨ls, r⟩
        rcases hrl : runLines h o ls with ⟨o', st⟩
        cases st <;> simp [feed]
      · have hab : a ++ b ≠ [] := fun hh => ha (List.append_eq_nil.mp hh).1
        simp only [feed, if_neg ha, if_neg hab]
        rcases hsl : splitLines (buf ++ a) with ⟨ls, r⟩
        have hx := splitLines_append (buf ++ a) b
        rw [hsl] at hx
        rcases hrl : runLines h o ls with ⟨o', st⟩
        cases st with
        | none =>
          simp only [feed, if_neg hb]
          rcases hsl2 : splitLines (r ++ b) with ⟨ls₂, r₂⟩
          rw [hsl2] at hx
          rw [List.append_assoc] at hx
          rw [hx]
          have hr := runLines_append h o ls ls₂
          rw [hrl] at hr
          simp only at hr
          rw [hr]
        | some w =>
          simp only
          rcases hsl2 : splitLines (r ++ b) with ⟨ls₂, r₂⟩
          rw [hsl2] at hx
          rw [List.append_assoc] at hx
          rw [hx]
          have hr := runLines_append h o ls ls₂
          rw [hrl] at hr
          simp only at hr
          rw [hr]

theorem foldl_feed (h : List Char → StepRes α ω) (ps : List (List Char))
    (s : MState α ω) :
    ps.foldl (feed h) s = feed h s ps.flatten := by
  induction ps generalizing s with
  | nil =>
    cases s with
    | halt o w => rfl
    | run o buf => simp [List.flatten, feed]
  | cons p tl ih =>
    simp only [List.foldl_cons, List.flatten_cons]
    rw [ih, feed_feed]

/-- The whole run of the machine is the line-by-line run over the lines
of the concatenated input (the trailing partial line is discarded). -/
theorem run_machine_eq_runLines (h : List Char → StepRes α ω)
    (ps : List (List Char)) :
    run_machine h ps = runLines h [] (splitLines ps.flatten).1 := by
  unfold run_machine
  rw [foldl_feed]
  by_cases hf : ps.flatten = []
  · rw [hf]; rfl
  · simp only [feed, if_neg hf, List.nil_append]
    rcases hsl : splitLines ps.flatten with ⟨ls, r⟩
    simp only [hsl]
    rcases hrl : runLines h [] ls with ⟨o, st⟩
    cases st <;> rfl

/-- C2: for every input text and every way of splitting it into pieces
delivered incrementally (including mid-line splits), the Stream Decoder
`process_streaming_response` — and likewise the inline decoding loop of
`stream_proxy_response` — produces the same sequence of decoded chunks,
as long as the concatenation of the pieces is the same. -/
theorem c2_chunking_invariance (ps qs : List (List Char))
    (hpq : ps.flatten = qs.flatten) :
    process_streaming_response ps = process_streaming_response qs
    ∧ ∀ showTags, stream_proxy_response showTags ps =
        stream_proxy_response showTags qs := by
  constructor
  · unfold process_streaming_response
    rw [run_machine_eq_runLines, run_machine_eq_runLines, hpq]
  · intro showTags
    unfold stream_proxy_response
    rw [run_machine_eq_runLines, run_machine_eq_runLines, hpq]

/-- C2 witness: the spec's example line delivered whole and as the
mid-line split `"da" + "ta: {\"a\"" + ":1}\n"` decodes identically, to
the single record `{"a": 1}`. -/
theorem c2_witness :
    ["da".data, "ta: \x7b\"a\"".data, ":1\x7d\n".data].flatten =
        [("data: \x7b\"a\":1\x7d\n").data].flatten
    ∧ process_streaming_response ["da".data, "ta: \x7b\"a\"".data, ":1\x7d\n".data] =
        process_streaming_response [("data: \x7b\"a\":1\x7d\n").data]
    ∧ process_streaming_response [("data: \x7b\"a\":1\x7d\n").data] =
        ([Json.obj [("a", Json.num 1)]], none) :=
  ⟨rfl, (c2_chunking_invariance _ _ rfl).1, rfl⟩

/-! ## Shape of the streamed events -/

theorem renameOpenF_ne_nil (f : Nat) (l : List Char) (hl : l ≠ []) :
    renameOpenF f l ≠ [] := by
  cases f with
  | zero => simpa [renameOpenF] using hl
  | succ f =>
    cases l with
    | nil => exact absurd rfl hl
    | cons c rest =>
      cases h : matchOpenAt (c :: rest) with
      | some afterTag => simp [renameOpenF, h]
      | none => simp [renameOpenF, h]

theorem replaceCloseF_ne_nil (f : Nat) (l : List Char) (hl : l ≠ []) :
    replaceCloseF f l ≠ [] := by
  cases f with
  | zero => simpa [replaceCloseF] using hl
  | succ f =>
    cases l with
    | nil => exact absurd rfl hl
    | cons c rest =>
      by_cases h : beginsWith "</details>".data (c :: rest) = true
      · simp [replaceCloseF, h]
      · simp [replaceCloseF, h]

theorem streamTransform_ne_nil (showTags : Bool) (delta : List Char)
    (hd : delta ≠ []) : streamTransform showTags delta ≠ [] := by
  cases showTags with
  | false => simpa [streamTransform] using hd
  | true =>
    simp only [streamTransform, if_pos]
    exact replaceCloseF_ne_nil _ _ (renameOpenF_ne_nil _ _ hd)

theorem emitRecord_shape (showTags : Bool) (parsed : Json) :
    emitRecord showTags parsed = [] ∨
    ∃ c, emitRecord showTags parsed = [.content c] ∧ c ≠ [] := by
  simp only [emitRecord]
  split
  · rename_i h
    right
    exact ⟨_, rfl, streamTransform_ne_nil _ _ h.1⟩
  · left; rfl

theorem proxyStep_shape (showTags : Bool) (l : List Char) :
    (∃ xs, proxyStep showTags l = .cont xs ∧
        (xs = [] ∨ ∃ c, xs = [.content c] ∧ c ≠ [])) ∨
    proxyStep showTags l = .stop [.terminal, .doneMark] () := by
  simp only [proxyStep]
  split
  · split
    · right; rfl
    · cases h : json_loads (pyStrip ((pyStrip l).drop 6)) with
      | none => exact Or.inl ⟨[], by simp [h], Or.inl rfl⟩
      | some parsed => exact Or.inl ⟨_, by simp [h], emitRecord_shape showTags parsed⟩
  · exact Or.inl ⟨[], rfl, Or.inl rfl⟩

theorem runLines_proxy_invariant (showTags : Bool) :
    ∀ (ls : List (List Char)) (out : List StreamEvent),
      (∀ e ∈ out, ∃ c, e = .content c ∧ c ≠ []) →
      ((runLines (proxyStep showTags) out ls).2 = none →
          ∀ e ∈ (runLines (proxyStep showTags) out ls).1,
            ∃ c, e = .content c ∧ c ≠ [])
      ∧ ((runLines (proxyStep showTags) out ls).2 ≠ none →
          ∃ pre, (runLines (proxyStep showTags) out ls).1 =
              pre ++ [.terminal, .doneMark]
            ∧ ∀ e ∈ pre, ∃ c, e = .content c ∧ c ≠ []) := by
  intro ls
  induction ls with
  | nil =>
    intro out hout
    refine ⟨fun _ e he => hout e he, fun hcon => absurd rfl hcon⟩
  | cons l t ih =>
    intro out hout
    rcases proxyStep_shape showTags l with ⟨xs, hstep, hxs⟩ | hstep
    · have hout' : ∀ e ∈ out ++ xs, ∃ c, e = .content c ∧ c ≠ [] := by
        intro e he
        rcases List.mem_append.mp he with h1 | h2
        · exact hout e h1
        · rcases hxs with rfl | ⟨c, rfl, hc⟩
          · cases h2
          · rcases List.mem_singleton.mp h2 with rfl
            exact ⟨c, rfl, hc⟩
      simp only [runLines, hstep]
      exact ih (out ++ xs) hout'
    · simp only [runLines, hstep]
      constructor
      · intro hcon; cases hcon
      · intro _; exact ⟨out, rfl, hout⟩

theorem mem_flatten_emit (showTags : Bool) (recs : List Json) (e : StreamEvent)
    (he : e ∈ (recs.map (emitRecord showTags)).flatten) :
    ∃ c, e = .content c ∧ c ≠ [] := by
  rcases List.mem_flatten.mp he with ⟨l, hl, hel⟩
  rcases List.mem_map.mp hl with ⟨r, _, rfl⟩
  rcases emitRecord_shape showTags r with hz | ⟨c, hc, hne⟩
  · rw [hz] at hel; cases hel
  · rw [hc] at hel
    rcases List.mem_singleton.mp hel with rfl
    exact ⟨c, rfl, hne⟩

/-- C4 counterexample: when the upstream closes without the sentinel
(here: one content line and then end of input), the wired streaming path
`stream_proxy_response` emits no terminal event and no end-of-stream
sentinel at all, contradicting the claim's "or the upstream connection
closes" clause. -/
theorem c4_counterexample :
    stream_proxy_response false
        [("data: \x7b\"data\": \x7b\"delta_content\": \"hi\", \"phase\": \"answer\"\x7d\x7d\n").data] =
      ([.content "hi".data], none)
    ∧ StreamEvent.terminal ∉
        (stream_proxy_response false
          [("data: \x7b\"data\": \x7b\"delta_content\": \"hi\", \"phase\": \"answer\"\x7d\x7d\n").data]).1
    ∧ StreamEvent.doneMark ∉
        (stream_proxy_response false
          [("data: \x7b\"data\": \x7b\"delta_content\": \"hi\", \"phase\": \"answer\"\x7d\x7d\n").data]).1 := by
  refine ⟨rfl, ?_, ?_⟩ <;> decide

/-- C4 (amended): in the wired streaming path, when the decoder reaches
the sentinel, exactly one terminal event is emitted and it is the last
event before the end-of-stream sentinel; when the upstream closes
without the sentinel, no terminal event and no sentinel are emitted.
The wired loop performs no record-level error check, so the
upstream-error condition arises only in the superseded
`stream_response`, where it yields a single error-shaped event with no
terminal event after it. -/
theorem c4_terminal_event (showTags : Bool) (pieces : List (List Char)) :
    ((stream_proxy_response showTags pieces).2 = some () →
        ∃ pre, (stream_proxy_response showTags pieces).1 =
            pre ++ [.terminal, .doneMark]
          ∧ ∀ e ∈ pre, ∃ c, e = .content c ∧ c ≠ [])
    ∧ ((stream_proxy_response showTags pieces).2 = none →
        StreamEvent.terminal ∉ (stream_proxy_response showTags pieces).1
        ∧ StreamEvent.doneMark ∉ (stream_proxy_response showTags pieces).1)
    ∧ (∀ recs d, process_streaming_response pieces = (recs, some (.err d)) →
        ∃ pre, stream_response showTags pieces = pre ++ [.errorEvent d]
          ∧ ∀ e ∈ pre, ∃ c, e = .content c ∧ c ≠ []) := by
  have hrm : stream_proxy_response showTags pieces =
      runLines (proxyStep showTags) [] (splitLines pieces.flatten).1 :=
    run_machine_eq_runLines _ _
  have hinv := runLines_proxy_invariant showTags (splitLines pieces.flatten).1 []
    (by intro e he; cases he)
  refine ⟨?_, ?_, ?_⟩
  · intro hs
    rw [hrm] at hs ⊢
    exact hinv.2 (by rw [hs]; exact fun h => Option.noConfusion h)
  · intro hs
    rw [hrm] at hs ⊢
    have hall := hinv.1 hs
    constructor
    · intro hmem
      rcases hall _ hmem with ⟨c, hc, _⟩
      cases hc
    · intro hmem
      rcases hall _ hmem with ⟨c, hc, _⟩
      cases hc
  · intro recs d hproc
    unfold stream_response
    rw [hproc]
    exact ⟨_, rfl, fun e he => mem_flatten_emit showTags recs e he⟩

/-- C4 witness: a stream reaching the sentinel gets the terminal event
as last event before the sentinel, and a stream whose record carries an
error indicator makes the superseded assembler emit a single error
event with nothing after it. -/
theorem c4_witness :
    (stream_proxy_response false
        [("data: \x7b\"data\": \x7b\"delta_content\": \"b\", \"phase\": \"answer\"\x7d\x7d\ndata: [DONE]\n").data]).2 =
      some ()
    ∧ (∃ pre, (stream_proxy_response false
        [("data: \x7b\"data\": \x7b\"delta_content\": \"b\", \"phase\": \"answer\"\x7d\x7d\ndata: [DONE]\n").data]).1 =
          pre ++ [.terminal, .doneMark]
        ∧ ∀ e ∈ pre, ∃ c, e = .content c ∧ c ≠ [])
    ∧ process_streaming_response [("data: \x7b\"error\": \x7b\"detail\": \"x\"\x7d\x7d\n").data] =
        ([], some (.err "Upstream error: x"))
    ∧ (∃ pre, stream_response false [("data: \x7b\"error\": \x7b\"detail\": \"x\"\x7d\x7d\n").data] =
          pre ++ [.errorEvent "Upstream error: x"]
        ∧ ∀ e ∈ pre, ∃ c, e = .content c ∧ c ≠ []) :=
  ⟨rfl, (c4_terminal_event false _).1 rfl, rfl,
    (c4_terminal_event false _).2.2 [] _ rfl⟩

/-- C10: a decoded chunk whose `delta_content` is empty or absent
produces no outbound event at all, regardless of phase and of the
reveal-thinking setting; consequently every content event emitted by
the wired streaming path carries a non-empty fragment. -/
theorem c10_nonempty_content :
    (∀ (showTags : Bool) (parsed : Json), deltaContentOf parsed = [] →
        emitRecord showTags parsed = [])
    ∧ (∀ (showTags : Bool) (pieces : List (List Char)) (c : List Char),
        StreamEvent.content c ∈ (stream_proxy_response showTags pieces).1 →
        c ≠ []) := by
  constructor
  · intro showTags parsed h
    simp [emitRecord, h]
  · intro showTags pieces c hc
    have hrm : stream_proxy_response showTags pieces =
        runLines (proxyStep showTags) [] (splitLines pieces.flatten).1 :=
      run_machine_eq_runLines _ _
    have hinv := runLines_proxy_invariant showTags (splitLines pieces.flatten).1 []
      (by intro e he; cases he)
    rw [hrm] at hc
    rcases hst : (runLines (proxyStep showTags) [] (splitLines pieces.flatten).1).2
      with _ | w
    · rcases hinv.1 hst _ hc with ⟨c', hc', hne⟩
      injection hc' with h
      exact h ▸ hne
    · rcases hinv.2 (by rw [hst]; exact fun h => Option.noConfusion h)
        with ⟨pre, hpre, hall⟩
      rw [hpre] at hc
      rcases List.mem_append.mp hc with h1 | h2
      · rcases hall _ h1 with ⟨c', hc', hne⟩
        injection hc' with h
        exact h ▸ hne
      · simp at h2

/-- C10 witness: an absent `delta_content` yields no event even with an
answer phase and thinking revealed; the content event of a concrete run
carries the non-empty fragment `"b"`. -/
theorem c10_witness :
    deltaContentOf (Json.obj [("data", Json.obj [("phase", Json.str "answer")])]) = []
    ∧ emitRecord true (Json.obj [("data", Json.obj [("phase", Json.str "answer")])]) = []
    ∧ StreamEvent.content "b".data ∈
        (stream_proxy_response false
          [("data: \x7b\"data\": \x7b\"delta_content\": \"b\", \"phase\": \"answer\"\x7d\x7d\ndata: [DONE]\n").data]).1
    ∧ "b".data ≠ [] := by
  refine ⟨rfl, c10_nonempty_content.1 true _ rfl, by decide, ?_⟩
  exact c10_nonempty_content.2 false
    [("data: \x7b\"data\": \x7b\"delta_content\": \"b\", \"phase\": \"answer\"\x7d\x7d\ndata: [DONE]\n").data]
    "b".data (by decide)

/-- C1 counterexample: an answer-phase chunk whose text contains a
details block.  The wired non-streaming path returns it verbatim, while
the Full Transform of the eligible concatenation removes the block; the
two disagree, so the returned content is not the Full Transform of the
concatenation. -/
theorem c1_counterexample :
    process_streaming_response
        [("data: \x7b\"data\": \x7b\"delta_content\": \"<details>x</details>Hi\", \"phase\": \"answer\"\x7d\x7d\ndata: [DONE]\n").data] =
      ([Json.obj [("data", Json.obj [("delta_content", Json.str "<details>x</details>Hi"),
          ("phase", Json.str "answer")])]], some .done)
    ∧ claimAggregate false
        [Json.obj [("data", Json.obj [("delta_content", Json.str "<details>x</details>Hi"),
            ("phase", Json.str "answer")])]] = "Hi".data
    ∧ handle_chat_completion_nonstream false
        [("data: \x7b\"data\": \x7b\"delta_content\": \"<details>x</details>Hi\", \"phase\": \"answer\"\x7d\x7d\ndata: [DONE]\n").data] =
        "<details>x</details>Hi".data
    ∧ handle_chat_completion_nonstream false
        [("data: \x7b\"data\": \x7b\"delta_content\": \"<details>x</details>Hi\", \"phase\": \"answer\"\x7d\x7d\ndata: [DONE]\n").data] ≠
      claimAggregate false
        [Json.obj [("data", Json.obj [("delta_content", Json.str "<details>x</details>Hi"),
            ("phase", Json.str "answer")])]] := by
  exact ⟨rfl, by decide, by decide, by decide⟩

/-- C1 (amended): the superseded assembler `non_stream_response`
returns exactly the Full Transform applied once to the concatenation of
the eligible chunks' `delta_content`; the wired non-streaming path
returns the plain concatenation of the per-chunk-filtered deltas with
no aggregate transform.  On the cited example (thinking "a", answer
"b", answer "c", sentinel, reveal-thinking false) both return "bc". -/
theorem c1_nonstream_aggregation :
    (∀ (showTags : Bool) (pieces : List (List Char)) (recs : List Json)
        (st : Option DecOutcome),
        process_streaming_response pieces = (recs, st) →
        (st = none ∨ st = some .done) → recs ≠ [] →
        non_stream_response showTags pieces = .ok (claimAggregate showTags recs))
    ∧ handle_chat_completion_nonstream false
        [("data: \x7b\"data\": \x7b\"delta_content\": \"a\", \"phase\": \"thinking\"\x7d\x7d\ndata: \x7b\"data\": \x7b\"delta_content\": \"b\", \"phase\": \"answer\"\x7d\x7d\ndata: \x7b\"data\": \x7b\"delta_content\": \"c\", \"phase\": \"answer\"\x7d\x7d\ndata: [DONE]\n").data] =
        "bc".data
    ∧ non_stream_response false
        [("data: \x7b\"data\": \x7b\"delta_content\": \"a\", \"phase\": \"thinking\"\x7d\x7d\ndata: \x7b\"data\": \x7b\"delta_content\": \"b\", \"phase\": \"answer\"\x7d\x7d\ndata: \x7b\"data\": \x7b\"delta_content\": \"c\", \"phase\": \"answer\"\x7d\x7d\ndata: [DONE]\n").data] =
        .ok "bc".data := by
  refine ⟨?_, by decide, rfl⟩
  intro showTags pieces recs st hproc hst hrecs
  have hemp : recs.isEmpty = false := by
    cases recs with
    | nil => exact absurd rfl hrecs
    | cons a t => rfl
  unfold non_stream_response
  rw [hproc]
  rcases hst with rfl | rfl
  · simp only [hemp, Bool.false_eq_true, if_false]
    cases showTags <;> rfl
  · simp only [hemp, Bool.false_eq_true, if_false]
    cases showTags <;> rfl

/-- C1 witness: the cited example run through the superseded assembler
matches the Full Transform of the eligible concatenation. -/
theorem c1_witness :
    process_streaming_response
        [("data: \x7b\"data\": \x7b\"delta_content\": \"a\", \"phase\": \"thinking\"\x7d\x7d\ndata: \x7b\"data\": \x7b\"delta_content\": \"b\", \"phase\": \"answer\"\x7d\x7d\ndata: \x7b\"data\": \x7b\"delta_content\": \"c\", \"phase\": \"answer\"\x7d\x7d\ndata: [DONE]\n").data] =
      ([Json.obj [("data", Json.obj [("delta_content", Json.str "a"), ("phase", Json.str "thinking")])],
        Json.obj [("data", Json.obj [("delta_content", Json.str "b"), ("phase", Json.str "answer")])],
        Json.obj [("data", Json.obj [("delta_content", Json.str "c"), ("phase", Json.str "answer")])]],
       some .done)
    ∧ non_stream_response false
        [("data: \x7b\"data\": \x7b\"delta_content\": \"a\", \"phase\": \"thinking\"\x7d\x7d\ndata: \x7b\"data\": \x7b\"delta_content\": \"b\", \"phase\": \"answer\"\x7d\x7d\ndata: \x7b\"data\": \x7b\"delta_content\": \"c\", \"phase\": \"answer\"\x7d\x7d\ndata: [DONE]\n").data] =
        .ok (claimAggregate false
          [Json.obj [("data", Json.obj [("delta_content", Json.str "a"), ("phase", Json.str "thinking")])],
           Json.obj [("data", Json.obj [("delta_content", Json.str "b"), ("phase", Json.str "answer")])],
           Json.obj [("data", Json.obj [("delta_content", Json.str "c"), ("phase", Json.str "answer")])]]) := by
  refine ⟨rfl, ?_⟩
  exact c1_nonstream_aggregation.1 false _ _ (some .done) rfl (Or.inr rfl)
    (List.cons_ne_nil _ _)

/-- C9 counterexample: on a stream completing with zero chunks, the
wired non-streaming path returns a successful response with empty
content rather than failing with an internal fault. -/
theorem c9_counterexample :
    handle_chat_completion_nonstream false [("data: [DONE]\n").data] = []
    ∧ stream_proxy_response false [("data: [DONE]\n").data] =
        ([.terminal, .doneMark], some ()) :=
  ⟨by decide, rfl⟩

/-- C9 (amended): only the superseded `non_stream_response` raises the
internal fault ("No response from upstream", surfaced as HTTP 500) when
the stream completes with zero chunks; the wired path returns success
with empty content. -/
theorem c9_empty_result :
    (∀ (showTags : Bool) (pieces : List (List Char)) (st : Option DecOutcome),
        process_streaming_response pieces = ([], st) →
        (st = none ∨ st = some .done) →
        non_stream_response showTags pieces = .error "No response from upstream")
    ∧ (∀ showTags : Bool, non_stream_response showTags [("data: [DONE]\n").data] =
        .error "No response from upstream") := by
  constructor
  · intro showTags pieces st hproc hst
    unfold non_stream_response
    rw [hproc]
    rcases hst with rfl | rfl <;> rfl
  · intro showTags
    rfl

/-- C9 witness: a sentinel-only stream yields zero chunks and the
superseded assembler fails with the internal fault. -/
theorem c9_witness :
    process_streaming_response [("data: [DONE]\n").data] = ([], some .done)
    ∧ non_stream_response true [("data: [DONE]\n").data] =
        .error "No response from upstream" :=
  ⟨rfl, c9_empty_result.1 true _ _ rfl (Or.inr rfl)⟩

/-! ## Helper lemmas about `pyStrip` for the error-abort claim -/

theorem lengthDropWhileLe (q : Char → Bool) (l : List Char) :
    (l.dropWhile q).length ≤ l.length :=
  (List.dropWhile_sublist (l := l) (p := q)).length_le

theorem dropWhile_eq_self_of_length (q : Char → Bool) (l : List Char)
    (h : (l.dropWhile q).length = l.length) : l.dropWhile q = l := by
  induction l with
  | nil => rfl
  | cons c t ih =>
    rw [List.dropWhile_cons] at h ⊢
    by_cases hq : q c = true
    · rw [if_pos hq] at h
      have := lengthDropWhileLe q t
      simp at h
      omega
    · rw [if_neg hq]

theorem head_not_space_of_dropWhile_self (q : Char → Bool) (c : Char)
    (t : List Char) (h : (c :: t).dropWhile q = c :: t) : q c = false := by
  by_cases hq : q c = true
  · rw [List.dropWhile_cons, if_pos hq] at h
    have h1 := lengthDropWhileLe q t
    have h2 : (t.dropWhile q).length = t.length + 1 := by rw [h]; rfl
    omega
  · simpa using hq

theorem pyStrip_parts (p : List Char) (h : pyStrip p = p) :
    p.dropWhile pySpace = p ∧ p.reverse.dropWhile pySpace = p.reverse := by
  have h1 : (p.dropWhile pySpace).length ≤ p.length := lengthDropWhileLe _ _
  have h2 : ((p.dropWhile pySpace).reverse.dropWhile pySpace).length ≤
      (p.dropWhile pySpace).length := by
    have := lengthDropWhileLe pySpace (p.dropWhile pySpace).reverse
    simpa using this
  have h3 : ((p.dropWhile pySpace).reverse.dropWhile pySpace).length = p.length := by
    have : (pyStrip p).length = p.length := by rw [h]
    unfold pyStrip at this
    simpa using this
  have e1 : (p.dropWhile pySpace).length = p.length := by omega
  have hd : p.dropWhile pySpace = p := dropWhile_eq_self_of_length _ _ e1
  refine ⟨hd, ?_⟩
  have h4 : (p.reverse.dropWhile pySpace).reverse = p := by
    unfold pyStrip at h
    rw [hd] at h
    exact h
  have := congrArg List.reverse h4
  simpa using this

theorem beginsWith_append_self (w r : List Char) : beginsWith w (w ++ r) = true := by
  induction w with
  | nil => rfl
  | cons c t ih => simpa [beginsWith] using ih

theorem pyStrip_data_line (payload : List Char) (hp : pyStrip payload = payload)
    (hne : payload ≠ []) :
    pyStrip ("data: ".data ++ payload) = "data: ".data ++ payload := by
  obtain ⟨hl, hr⟩ := pyStrip_parts payload hp
  have hrev : payload.reverse ≠ [] := by simpa using hne
  obtain ⟨c, t, hct⟩ : ∃ c t, payload.reverse = c :: t := by
    cases hh : payload.reverse with
    | nil => exact absurd hh hrev
    | cons c t => exact ⟨c, t, rfl⟩
  have hc : pySpace c = false :=
    head_not_space_of_dropWhile_self pySpace c t (by rw [← hct]; exact hr)
  unfold pyStrip
  have hlft : ("data: ".data ++ payload).dropWhile pySpace =
      "data: ".data ++ payload := by
    show List.dropWhile pySpace ('d' :: ("ata: ".data ++ payload)) = _
    rw [List.dropWhile_cons, show pySpace 'd' = false from rfl]
    simp
  rw [hlft, List.reverse_append, hct, List.cons_append, List.dropWhile_cons, hc]
  have hstep : (c :: (t ++ ("data: ".data).reverse)) =
      payload.reverse ++ ("data: ".data).reverse := by
    rw [hct]; rfl
  simp only [Bool.false_eq_true, if_false]
  rw [hstep, List.reverse_append, List.reverse_reverse, List.reverse_reverse]

/-- C3 counterexample: a stream whose first record is
`{"error": {"detail": "x"}}`.  The cited decoder
`process_streaming_response` aborts with the upstream-error condition,
but the wired decoding loop of `stream_proxy_response` has no error
check: it yields nothing for that record and decoding continues — the
following content chunk is still emitted and the sentinel is reached,
so decoding does not abort. -/
theorem c3_counterexample :
    process_streaming_response
        [("data: \x7b\"error\": \x7b\"detail\": \"x\"\x7d\x7d\ndata: \x7b\"data\": \x7b\"delta_content\": \"hi\", \"phase\": \"answer\"\x7d\x7d\ndata: [DONE]\n").data] =
      ([], some (.err "Upstream error: x"))
    ∧ stream_proxy_response false
        [("data: \x7b\"error\": \x7b\"detail\": \"x\"\x7d\x7d\ndata: \x7b\"data\": \x7b\"delta_content\": \"hi\", \"phase\": \"answer\"\x7d\x7d\ndata: [DONE]\n").data] =
      ([.content "hi".data, .terminal, .doneMark], some ()) :=
  ⟨rfl, rfl⟩

/-- C3 (amended): in `process_streaming_response`, a stream line whose
parsed record carries an explicit error indicator (top level or nested
under `data`) makes the decoder raise the upstream-error condition
carrying the extracted detail, yield no chunk for that record, and
abort decoding regardless of what follows; the detail extracted from
the record `{"error": {"detail": "x"}}` is `"x"`. -/
theorem c3_error_abort :
    (∀ (payload : List Char) (parsed : Json) (out : List Json)
        (ls : List (List Char)),
        pyStrip payload = payload → payload ≠ [] →
        json_loads payload = some parsed → hasErrorIndicator parsed = true →
        decodeStep ("data: ".data ++ payload) =
          .stop [] (.err ("Upstream error: " ++ asStr (upstreamErrorDetail parsed)))
        ∧ runLines decodeStep out (("data: ".data ++ payload) :: ls) =
            (out, some (.err ("Upstream error: " ++ asStr (upstreamErrorDetail parsed)))))
    ∧ hasErrorIndicator (Json.obj [("error", Json.obj [("detail", Json.str "x")])]) = true
    ∧ upstreamErrorDetail (Json.obj [("error", Json.obj [("detail", Json.str "x")])]) =
        Json.str "x" := by
  refine ⟨?_, rfl, rfl⟩
  intro payload parsed out ls hstrip hne hparse herr
  have hdone : json_loads "[DONE]".data = none := rfl
  have hnd : payload ≠ "[DONE]".data := by
    intro heq
    rw [heq, hdone] at hparse
    exact Option.noConfusion hparse
  have hdrop : ("data: ".data ++ payload).drop 6 = payload := by
    have h6 : ("data: ".data).length = 6 := rfl
    rw [← h6]
    exact List.drop_left _ _
  have hstep : decodeStep ("data: ".data ++ payload) =
      .stop [] (.err ("Upstream error: " ++ asStr (upstreamErrorDetail parsed))) := by
    simp only [decodeStep]
    rw [pyStrip_data_line payload hstrip hne, hdrop, hstrip]
    simp [hnd, hparse, herr]
    exact beginsWith_append_self "data: ".data payload
  refine ⟨hstep, ?_⟩
  have hstep' : decodeStep ('d' :: 'a' :: 't' :: 'a' :: ':' :: ' ' :: payload) =
      .stop [] (.err ("Upstream error: " ++ asStr (upstreamErrorDetail parsed))) := hstep
  simp [runLines, hstep']

/-- C3 witness: the record `{"error": {"detail": "x"}}` on a stream
line raises the upstream-error condition with detail `"x"`, yields no
chunk, and aborts before a following line is processed. -/
theorem c3_witness :
    pyStrip ("\x7b\"error\": \x7b\"detail\": \"x\"\x7d\x7d").data =
        ("\x7b\"error\": \x7b\"detail\": \"x\"\x7d\x7d").data
    ∧ json_loads ("\x7b\"error\": \x7b\"detail\": \"x\"\x7d\x7d").data =
        some (Json.obj [("error", Json.obj [("detail", Json.str "x")])])
    ∧ runLines decodeStep []
        [("data: ".data ++ ("\x7b\"error\": \x7b\"detail\": \"x\"\x7d\x7d").data),
         ("data: \x7b\"data\": \x7b\"delta_content\": \"hi\"\x7d\x7d").data] =
        ([], some (.err "Upstream error: x")) := by
  refine ⟨rfl, rfl, ?_⟩
  exact (c3_error_abort.1 ("\x7b\"error\": \x7b\"detail\": \"x\"\x7d\x7d").data
    (Json.obj [("error", Json.obj [("detail", Json.str "x")])]) []
    [("data: \x7b\"data\": \x7b\"delta_content\": \"hi\"\x7d\x7d").data]
    rfl (by decide) rfl rfl).2

/-- C7 counterexample: with reveal-thinking true, the Full Transform of
`"<details>secret</details>Answer"` is `"<think>secret</think>Answer"`,
not the claimed `"<think>secret</think>\nAnswer"`: the closing tag is
produced by rewriting `"</details>"`, so no synthesis (and no newline)
happens. -/
theorem c7_counterexample :
    transform_content true "<details>secret</details>Answer".data =
      "<think>secret</think>Answer".data
    ∧ transform_content true "<details>secret</details>Answer".data ≠
      "<think>secret</think>\nAnswer".data :=
  ⟨by decide, by decide⟩

/-- C7 (amended): on the cited input the closing tag comes from
rewriting the existing `"</details>"`, yielding
`"<think>secret</think>Answer"` with no newline.  The boundary rule —
synthesize `"</think>\n"` immediately before the first line starting
with an uppercase letter or digit — applies only when no closing tag is
present, e.g. `"<details>secret\nAnswer"` becomes
`"<think>secret</think>\n\nAnswer"`. -/
theorem c7_reveal_transform :
    transform_content true "<details>secret</details>Answer".data =
      "<think>secret</think>Answer".data
    ∧ transform_content true "<details>secret\nAnswer".data =
      "<think>secret</think>\n\nAnswer".data :=
  ⟨by decide, by decide⟩

/-! ## Idempotence of the hiding transform

The key invariant: the output of `sub2` contains no occurrence of
`<details[^>]*>`, so a second pass of both substitutions is the
identity; stripping preserves the absence of occurrences. -/

theorem skipToGt_none_iff (l : List Char) :
    skipToGt l = none ↔ '>' ∉ l := by
  induction l with
  | nil => simp [skipToGt]
  | cons c t ih =>
    by_cases hc : c = '>'
    · subst hc; simp [skipToGt]
    · simp only [skipToGt, if_neg hc, ih, List.mem_cons, not_or]
      constructor
      · intro h
        exact ⟨fun he => hc he.symm, h⟩
      · intro h
        exact h.2

theorem skipToGt_some_length (l r : List Char) (h : skipToGt l = some r) :
    r.length < l.length := by
  induction l generalizing r with
  | nil => cases h
  | cons c t ih =>
    by_cases hc : c = '>'
    · subst hc
      have he : skipToGt ('>' :: t) = some t := rfl
      rw [he] at h
      injection h with h
      subst h
      simp
    · simp only [skipToGt, if_neg hc] at h
      have := ih r h
      simp
      omega

theorem skipToGt_mem (l r : List Char) (h : skipToGt l = some r) :
    ∀ a ∈ r, a ∈ l := by
  induction l generalizing r with
  | nil => cases h
  | cons c t ih =>
    by_cases hc : c = '>'
    · subst hc
      have he : skipToGt ('>' :: t) = some t := rfl
      rw [he] at h
      injection h with h
      subst h
      intro a ha
      exact List.mem_cons_of_mem _ ha
    · simp only [skipToGt, if_neg hc] at h
      intro a ha
      exact List.mem_cons_of_mem _ (ih r h a ha)

theorem beginsWith_iff (p s : List Char) :
    beginsWith p s = true ↔ ∃ r, s = p ++ r := by
  induction p generalizing s with
  | nil => simp [beginsWith]
  | cons a p ih =>
    cases s with
    | nil =>
      constructor
      · intro h
        exact absurd h (by simp [beginsWith])
      · rintro ⟨r, hr⟩
        simp at hr
    | cons c t =>
      by_cases hac : a = c
      · subst hac
        have hb : beginsWith (a :: p) (a :: t) = beginsWith p t := by
          simp [beginsWith]
        rw [hb, ih]
        constructor
        · rintro ⟨r, rfl⟩
          exact ⟨r, rfl⟩
        · rintro ⟨r, hr⟩
          rw [List.cons_append] at hr
          injection hr with h1 h2
          exact ⟨r, h2⟩
      · simp only [beginsWith, if_neg hac, List.cons_append]
        constructor
        · intro h
          cases h
        · rintro ⟨r, hr⟩
          injection hr with h1 h2
          exact absurd h1.symm hac

theorem matchOpenAt_some_length (l r : List Char) (h : matchOpenAt l = some r) :
    r.length + 9 ≤ l.length := by
  unfold matchOpenAt at h
  by_cases hb : beginsWith "<details".data l = true
  · rw [if_pos hb] at h
    obtain ⟨rest, rfl⟩ := (beginsWith_iff _ _).mp hb
    have hlen := skipToGt_some_length _ _ h
    simp at hlen ⊢
    omega
  · rw [if_neg hb] at h; cases h

theorem matchOpenAt_mem (l r : List Char) (h : matchOpenAt l = some r) :
    ∀ a ∈ r, a ∈ l := by
  unfold matchOpenAt at h
  by_cases hb : beginsWith "<details".data l = true
  · rw [if_pos hb] at h
    intro a ha
    exact List.mem_of_mem_drop (skipToGt_mem _ _ h a ha)
  · rw [if_neg hb] at h; cases h

theorem lazyToLookahead_length (l : List Char) :
    (lazyToLookahead l).length ≤ l.length := by
  induction l with
  | nil => simp [lazyToLookahead]
  | cons c t ih =>
    simp only [lazyToLookahead]
    by_cases h : lookahead (c :: t) = true
    · rw [if_pos h]
    · rw [if_neg h]; simp; omega

theorem lazyToLookahead_mem (l : List Char) :
    ∀ a ∈ lazyToLookahead l, a ∈ l := by
  induction l with
  | nil => simp [lazyToLookahead]
  | cons c t ih =>
    simp only [lazyToLookahead]
    by_cases h : lookahead (c :: t) = true
    · rw [if_pos h]; intro a ha; exact ha
    · rw [if_neg h]; intro a ha; exact List.mem_cons_of_mem _ (ih a ha)

theorem lazyToLookahead_lookahead (l : List Char) :
    lookahead (lazyToLookahead l) = true := by
  induction l with
  | nil => simp [lazyToLookahead, lookahead]
  | cons c t ih =>
    simp only [lazyToLookahead]
    by_cases h : lookahead (c :: t) = true
    · rw [if_pos h]; exact h
    · rw [if_neg h]; exact ih

theorem findClose_length (l r : List Char) (h : findClose l = some r) :
    r.length ≤ l.length := by
  induction l generalizing r with
  | nil => cases h
  | cons c t ih =>
    by_cases hb : beginsWith "</details>".data (c :: t) = true
    · simp only [findClose, if_pos hb, Option.some.injEq] at h
      subst h
      simp; omega
    · simp only [findClose, if_neg hb] at h
      have := ih r h
      simp; omega

theorem sub2F_fuel (f : Nat) : ∀ (g : Nat) (l : List Char),
    l.length ≤ f → l.length ≤ g → sub2F f l = sub2F g l := by
  induction f with
  | zero =>
    intro g l hf hg
    have hl : l = [] := List.length_eq_zero.mp (Nat.le_zero.mp hf)
    subst hl
    cases g <;> rfl
  | succ f ihf =>
    intro g l hf hg
    cases l with
    | nil => cases g <;> rfl
    | cons c rest =>
      cases g with
      | zero => simp at hg
      | succ g' =>
        simp only [List.length_cons, Nat.add_le_add_iff_right] at hf hg
        cases hm : matchOpenAt (c :: rest) with
        | some after =>
          have h9 := matchOpenAt_some_length _ _ hm
          have hll := lazyToLookahead_length after
          simp only [List.length_cons] at h9
          simp only [sub2F, hm]
          exact ihf g' (lazyToLookahead after) (by omega) (by omega)
        | none =>
          simp only [sub2F, hm]
          rw [ihf g' rest hf hg]

theorem sub2_eq_fuel (f : Nat) (l : List Char) (hf : l.length ≤ f) :
    sub2 l = sub2F f l :=
  sub2F_fuel l.length f l le_rfl hf

theorem sub2_match (c : Char) (rest after : List Char)
    (hm : matchOpenAt (c :: rest) = some after) :
    sub2 (c :: rest) = sub2 (lazyToLookahead after) := by
  have h9 := matchOpenAt_some_length _ _ hm
  have hll := lazyToLookahead_length after
  simp only [List.length_cons] at h9
  have h1 : sub2 (c :: rest) = sub2F (rest.length + 1) (c :: rest) := rfl
  rw [h1]
  simp only [sub2F, hm]
  exact (sub2_eq_fuel rest.length (lazyToLookahead after) (by omega)).symm

theorem sub2_keep (c : Char) (rest : List Char)
    (hm : matchOpenAt (c :: rest) = none) :
    sub2 (c :: rest) = c :: sub2 rest := by
  have h1 : sub2 (c :: rest) = sub2F (rest.length + 1) (c :: rest) := rfl
  rw [h1]
  simp only [sub2F, hm]
  rfl

theorem sub1F_fuel (f : Nat) : ∀ (g : Nat) (l : List Char),
    l.length ≤ f → l.length ≤ g → sub1F f l = sub1F g l := by
  induction f with
  | zero =>
    intro g l hf hg
    have hl : l = [] := List.length_eq_zero.mp (Nat.le_zero.mp hf)
    subst hl
    cases g <;> rfl
  | succ f ihf =>
    intro g l hf hg
    cases l with
    | nil => cases g <;> rfl
    | cons c rest =>
      cases g with
      | zero => simp at hg
      | succ g' =>
        simp only [List.length_cons, Nat.add_le_add_iff_right] at hf hg
        cases hm : matchOpenAt (c :: rest) with
        | some after =>
          have h9 := matchOpenAt_some_length _ _ hm
          simp only [List.length_cons] at h9
          cases hc : findClose after with
          | some afterClose =>
            have hcl := findClose_length _ _ hc
            simp only [sub1F, hm, hc]
            exact ihf g' afterClose (by omega) (by omega)
          | none =>
            simp only [sub1F, hm, hc]
            rw [ihf g' rest hf hg]
        | none =>
          simp only [sub1F, hm]
          rw [ihf g' rest hf hg]

theorem sub1_keep (c : Char) (rest : List Char)
    (hm : matchOpenAt (c :: rest) = none) :
    sub1 (c :: rest) = c :: sub1 rest := by
  have h1 : sub1 (c :: rest) = sub1F (rest.length + 1) (c :: rest) := rfl
  rw [h1]
  simp only [sub1F, hm]
  rfl

theorem beginsWith_append (p l b : List Char) (h : beginsWith p l = true) :
    beginsWith p (l ++ b) = true := by
  rw [beginsWith_iff] at h ⊢
  obtain ⟨r, rfl⟩ := h
  exact ⟨r ++ b, by rw [List.append_assoc]⟩

theorem skipToGt_append (l b r : List Char) (h : skipToGt l = some r) :
    skipToGt (l ++ b) = some (r ++ b) := by
  induction l generalizing r with
  | nil => cases h
  | cons c t ih =>
    by_cases hc : c = '>'
    · subst hc
      have he : skipToGt ('>' :: t) = some t := rfl
      rw [he] at h
      injection h with h
      subst h
      rfl
    · simp only [skipToGt, if_neg hc] at h
      rw [List.cons_append]
      simp only [skipToGt, if_neg hc]
      exact ih r h

theorem matchOpenAt_isSome_append (l b : List Char)
    (h : (matchOpenAt l).isSome = true) : (matchOpenAt (l ++ b)).isSome = true := by
  unfold matchOpenAt at h ⊢
  by_cases hb : beginsWith "<details".data l = true
  · rw [if_pos hb] at h
    rw [if_pos (beginsWith_append _ _ b hb)]
    obtain ⟨r0, rfl⟩ := (beginsWith_iff _ _).mp hb
    have h8 : ("<details".data).length = 8 := rfl
    have hd0 : (("<details".data) ++ r0).drop 8 = r0 := by
      rw [← h8, List.drop_left]
    have hd : ((("<details".data) ++ r0) ++ b).drop 8 = r0 ++ b := by
      rw [List.append_assoc, ← h8, List.drop_left]
    rw [hd0] at h
    rw [hd]
    cases hs : skipToGt r0 with
    | none => rw [hs] at h; cases h
    | some r => rw [skipToGt_append _ b _ hs]; rfl
  · rw [if_neg hb] at h
    cases h

theorem hasOpen_append_right (l b : List Char) (h : hasOpen l = true) :
    hasOpen (l ++ b) = true := by
  induction l with
  | nil => cases h
  | cons c t ih =>
    simp only [hasOpen, Bool.or_eq_true] at h
    rw [List.cons_append]
    simp only [hasOpen, Bool.or_eq_true]
    rcases h with h | h
    · left
      have := matchOpenAt_isSome_append (c :: t) b h
      rw [List.cons_append] at this
      exact this
    · right
      exact ih h

theorem hasOpen_append_left (a x : List Char) (h : hasOpen x = true) :
    hasOpen (a ++ x) = true := by
  induction a with
  | nil => exact h
  | cons c t ih =>
    rw [List.cons_append]
    simp only [hasOpen, Bool.or_eq_true]
    right
    exact ih

theorem hasOpen_infix (a m b : List Char) (h : hasOpen (a ++ m ++ b) = false) :
    hasOpen m = false := by
  by_contra hc
  have h1 : hasOpen m = true := by
    revert hc
    cases hasOpen m <;> simp
  have h2 := hasOpen_append_left a (m ++ b) (hasOpen_append_right m b h1)
  rw [← List.append_assoc] at h2
  rw [h2] at h
  cases h

theorem sub_id_of_no_open (l : List Char) (h : hasOpen l = false) :
    sub1 l = l ∧ sub2 l = l := by
  induction l with
  | nil => exact ⟨rfl, rfl⟩
  | cons c t ih =>
    have hm : matchOpenAt (c :: t) = none := by
      cases hmm : matchOpenAt (c :: t) with
      | none => rfl
      | some a =>
        rw [hasOpen, hmm] at h
        cases h
    have ht : hasOpen t = false := by
      rw [hasOpen, hm] at h
      simpa using h
    obtain ⟨ih1, ih2⟩ := ih ht
    exact ⟨by rw [sub1_keep c t hm, ih1], by rw [sub2_keep c t hm, ih2]⟩

theorem sub2_mem_aux : ∀ (n : Nat) (l : List Char), l.length = n →
    ∀ a ∈ sub2 l, a ∈ l := by
  intro n
  induction n using Nat.strong_induction_on with
  | _ n ih =>
    intro l hn
    cases l with
    | nil =>
      intro a ha
      exact absurd ha (by simp [sub2, sub2F])
    | cons c rest =>
      cases hm : matchOpenAt (c :: rest) with
      | some after =>
        rw [sub2_match c rest after hm]
        intro a ha
        have h9 := matchOpenAt_some_length _ _ hm
        have hll := lazyToLookahead_length after
        simp only [List.length_cons] at h9 hn
        have hrec := ih (lazyToLookahead after).length (by omega)
          (lazyToLookahead after) rfl
        exact matchOpenAt_mem _ _ hm a (lazyToLookahead_mem after a (hrec a ha))
      | none =>
        rw [sub2_keep c rest hm]
        intro a ha
        rcases List.mem_cons.mp ha with rfl | ha'
        · exact List.mem_cons_self _ _
        · simp only [List.length_cons] at hn
          exact List.mem_cons_of_mem _
            (ih rest.length (by omega) rest rfl a ha')

theorem sub2_mem (l : List Char) : ∀ a ∈ sub2 l, a ∈ l :=
  sub2_mem_aux l.length l rfl

theorem beginsWith_cons (p : Char) (ps : List Char) (c : Char) (cs : List Char) :
    beginsWith (p :: ps) (c :: cs) = true ↔ p = c ∧ beginsWith ps cs = true := by
  by_cases h : p = c
  · subst h
    simp [beginsWith]
  · simp [beginsWith, h]

theorem sub2_head_aux : ∀ (n : Nat) (l : List Char), l.length = n →
    lookahead l = true →
    sub2 l = [] ∨ ∃ c t, sub2 l = c :: t ∧ lookChar c = true := by
  intro n
  induction n using Nat.strong_induction_on with
  | _ n ih =>
    intro l hn hla
    cases l with
    | nil => exact Or.inl rfl
    | cons c rest =>
      cases hm : matchOpenAt (c :: rest) with
      | some after =>
        rw [sub2_match c rest after hm]
        have h9 := matchOpenAt_some_length _ _ hm
        have hll := lazyToLookahead_length after
        simp only [List.length_cons] at h9 hn
        exact ih (lazyToLookahead after).length (by omega) _ rfl
          (lazyToLookahead_lookahead after)
      | none =>
        rw [sub2_keep c rest hm]
        right
        refine ⟨c, sub2 rest, rfl, ?_⟩
        unfold lookahead at hla
        by_cases hsp : pySpace c = true
        · simp [lookChar, hsp]
        · rw [List.dropWhile_cons, if_neg hsp] at hla
          have hla' : (c.isUpper || c.isDigit) = true := hla
          simp [lookChar, hsp, hla']

theorem sub2_head (l : List Char) (hla : lookahead l = true) :
    sub2 l = [] ∨ ∃ c t, sub2 l = c :: t ∧ lookChar c = true :=
  sub2_head_aux l.length l rfl hla

theorem sub2_prefix_preserved : ∀ (w : List Char),
    (∀ ch ∈ w, lookChar ch = false) → ∀ (l : List Char),
    beginsWith w (sub2 l) = true →
    beginsWith w l = true ∧ (sub2 l).drop w.length = sub2 (l.drop w.length) := by
  intro w
  induction w with
  | nil =>
    intro _ l _
    refine ⟨rfl, ?_⟩
    simp
  | cons ch w' ih =>
    intro hw l hb
    cases l with
    | nil =>
      rw [show sub2 [] = [] from rfl] at hb
      cases hb
    | cons c rest =>
      cases hm : matchOpenAt (c :: rest) with
      | some after =>
        exfalso
        rw [sub2_match c rest after hm] at hb
        rcases sub2_head (lazyToLookahead after) (lazyToLookahead_lookahead after)
          with hnil | ⟨d, t, hdt, hd⟩
        · rw [hnil] at hb
          cases hb
        · rw [hdt] at hb
          obtain ⟨hcd, _⟩ := (beginsWith_cons _ _ _ _).mp hb
          subst hcd
          have hlc := hw ch (List.mem_cons_self _ _)
          rw [hlc] at hd
          cases hd
      | none =>
        rw [sub2_keep c rest hm] at hb
        obtain ⟨hcd, hb'⟩ := (beginsWith_cons _ _ _ _).mp hb
        subst hcd
        have hw' : ∀ x ∈ w', lookChar x = false :=
          fun x hx => hw x (List.mem_cons_of_mem _ hx)
        obtain ⟨hbr, hdrop⟩ := ih hw' rest hb'
        constructor
        · exact (beginsWith_cons _ _ _ _).mpr ⟨rfl, hbr⟩
        · rw [sub2_keep ch rest hm]
          simp only [List.length_cons, List.drop_succ_cons]
          exact hdrop

theorem sub2_no_open_aux : ∀ (n : Nat) (l : List Char), l.length = n →
    hasOpen (sub2 l) = false := by
  intro n
  induction n using Nat.strong_induction_on with
  | _ n ih =>
    intro l hn
    cases l with
    | nil => rw [show sub2 [] = [] from rfl]; rfl
    | cons c rest =>
      cases hm : matchOpenAt (c :: rest) with
      | some after =>
        rw [sub2_match c rest after hm]
        have h9 := matchOpenAt_some_length _ _ hm
        have hll := lazyToLookahead_length after
        simp only [List.length_cons] at h9 hn
        exact ih (lazyToLookahead after).length (by omega) _ rfl
      | none =>
        rw [sub2_keep c rest hm]
        simp only [List.length_cons] at hn
        have hrest : hasOpen (sub2 rest) = false :=
          ih rest.length (by omega) rest rfl
        suffices hnone : matchOpenAt (c :: sub2 rest) = none by
          rw [hasOpen, hnone, hrest]
          rfl
        cases hmm : matchOpenAt (c :: sub2 rest) with
        | none => rfl
        | some x =>
          exfalso
          unfold matchOpenAt at hmm
          by_cases hbw : beginsWith "<details".data (c :: sub2 rest) = true
          · rw [if_pos hbw] at hmm
            have hbw2 : beginsWith ('<' :: "details".data) (c :: sub2 rest) = true := hbw
            obtain ⟨hc, hbd⟩ := (beginsWith_cons _ _ _ _).mp hbw2
            have hwchars : ∀ ch ∈ "details".data, lookChar ch = false := by decide
            obtain ⟨hbdr, hdrop⟩ := sub2_prefix_preserved "details".data hwchars rest hbd
            have hbworig : beginsWith "<details".data (c :: rest) = true := by
              have : beginsWith ('<' :: "details".data) (c :: rest) = true :=
                (beginsWith_cons _ _ _ _).mpr ⟨hc, hbdr⟩
              exact this
            have hskip : skipToGt ((c :: rest).drop 8) = none := by
              unfold matchOpenAt at hm
              rw [if_pos hbworig] at hm
              exact hm
            have hnogt : '>' ∉ (c :: rest).drop 8 := (skipToGt_none_iff _).mp hskip
            have hgt : '>' ∈ (c :: sub2 rest).drop 8 := by
              by_contra hn2
              rw [(skipToGt_none_iff _).mpr hn2] at hmm
              cases hmm
            have e1 : (c :: sub2 rest).drop 8 = (sub2 rest).drop 7 := rfl
            have e2 : (c :: rest).drop 8 = rest.drop 7 := rfl
            rw [e1] at hgt
            have hdrop7 : (sub2 rest).drop 7 = sub2 (rest.drop 7) := hdrop
            rw [hdrop7] at hgt
            rw [e2] at hnogt
            exact hnogt (sub2_mem _ '>' hgt)
          · rw [if_neg hbw] at hmm
            cases hmm

theorem sub2_no_open (l : List Char) : hasOpen (sub2 l) = false :=
  sub2_no_open_aux l.length l rfl

theorem dropWhile_dropWhile (q : Char → Bool) (l : List Char) :
    (l.dropWhile q).dropWhile q = l.dropWhile q := by
  induction l with
  | nil => rfl
  | cons a t ih =>
    by_cases h : q a = true
    · rw [List.dropWhile_cons, if_pos h]
      exact ih
    · rw [List.dropWhile_cons, if_neg h, List.dropWhile_cons, if_neg h]

theorem dropWhile_head_not (q : Char → Bool) (l : List Char) (c : Char)
    (t : List Char) (h : l.dropWhile q = c :: t) : q c = false := by
  induction l generalizing t with
  | nil => cases h
  | cons a s ih =>
    by_cases hq : q a = true
    · rw [List.dropWhile_cons, if_pos hq] at h
      exact ih t h
    · rw [List.dropWhile_cons, if_neg hq] at h
      injection h with h1 h2
      subst h1
      simpa using hq

theorem pyStrip_infix (l : List Char) : ∃ a b, l = a ++ pyStrip l ++ b := by
  refine ⟨l.takeWhile pySpace,
    ((l.dropWhile pySpace).reverse.takeWhile pySpace).reverse, ?_⟩
  conv_lhs => rw [← List.takeWhile_append_dropWhile (p := pySpace) (l := l)]
  rw [List.append_assoc]
  congr 1
  conv_lhs => rw [← List.reverse_reverse (l.dropWhile pySpace),
    ← List.takeWhile_append_dropWhile (p := pySpace)
      (l := (l.dropWhile pySpace).reverse)]
  rw [List.reverse_append]
  rfl

theorem no_open_pyStrip (l : List Char) (h : hasOpen l = false) :
    hasOpen (pyStrip l) = false := by
  obtain ⟨a, b, hab⟩ := pyStrip_infix l
  rw [hab] at h
  exact hasOpen_infix a _ b h

theorem pyStrip_pyStrip (l : List Char) : pyStrip (pyStrip l) = pyStrip l := by
  have hvrev : (pyStrip l).reverse =
      (l.dropWhile pySpace).reverse.dropWhile pySpace := by
    unfold pyStrip
    rw [List.reverse_reverse]
  have hB : (pyStrip l).reverse.dropWhile pySpace = (pyStrip l).reverse := by
    rw [hvrev]
    exact dropWhile_dropWhile pySpace (l.dropWhile pySpace).reverse
  have hA : (pyStrip l).dropWhile pySpace = pyStrip l := by
    cases hv : pyStrip l with
    | nil => rfl
    | cons c t =>
      have hdecomp : l.dropWhile pySpace =
          pyStrip l ++ ((l.dropWhile pySpace).reverse.takeWhile pySpace).reverse := by
        conv_lhs => rw [← List.reverse_reverse (l.dropWhile pySpace),
          ← List.takeWhile_append_dropWhile (p := pySpace)
            (l := (l.dropWhile pySpace).reverse)]
        rw [List.reverse_append]
        rfl
      rw [hv] at hdecomp
      have hc : pySpace c = false :=
        dropWhile_head_not pySpace l c
          (t ++ ((l.dropWhile pySpace).reverse.takeWhile pySpace).reverse)
          (hdecomp.trans (List.cons_append _ _ _))
      rw [List.dropWhile_cons, if_neg (by simp [hc])]
  show ((((pyStrip l).dropWhile pySpace).reverse.dropWhile pySpace)).reverse = pyStrip l
  rw [hA, hB, List.reverse_reverse]

/-- C8: with reveal-thinking false, the Full Transform is idempotent —
for every text, transforming its own output returns it unchanged.  The
key invariant: the output of the two substitutions contains no
occurrence of `<details[^>]*>`, and stripping preserves that. -/
theorem c8_idempotent (s : List Char) :
    transform_content false (transform_content false s) =
      transform_content false s := by
  by_cases hs : s = []
  · subst hs
    rfl
  · have ht : transform_content false s = pyStrip (pyStrip (sub2 (sub1 s))) := by
      unfold transform_content
      rw [if_neg hs]
      rfl
    rw [ht]
    have hno : hasOpen (pyStrip (pyStrip (sub2 (sub1 s)))) = false :=
      no_open_pyStrip _ (no_open_pyStrip _ (sub2_no_open (sub1 s)))
    by_cases hte : pyStrip (pyStrip (sub2 (sub1 s))) = []
    · rw [hte]
      rfl
    · obtain ⟨h1, h2⟩ := sub_id_of_no_open _ hno
      unfold transform_content
      rw [if_neg hte]
      show pyStrip (pyStrip (sub2 (sub1 (pyStrip (pyStrip (sub2 (sub1 s))))))) =
        pyStrip (pyStrip (sub2 (sub1 s)))
      rw [h1, h2]
      simp only [pyStrip_pyStrip]

/-! ## Round-robin credential rotation -/

theorem getD_mem_of_lt (l : List String) (idx : Nat) (h : idx < l.length) :
    l.getD idx "" ∈ l := by
  rw [List.getD_eq_getElem l "" h]
  exact List.getElem_mem h

theorem rotate_head (cs : List String) (idx : Nat) (h : idx < cs.length)
    (w0 : String) (wt : List String) (hW : cs.rotate idx = w0 :: wt) :
    w0 = cs.getD idx "" := by
  rw [List.rotate_eq_drop_append_take (Nat.le_of_lt h),
    List.drop_eq_getElem_cons h, List.cons_append] at hW
  injection hW with h1 _
  rw [List.getD_eq_getElem cs "" h]
  exact h1.symm

theorem rotate_step (cs : List String) (idx : Nat)
    (w0 : String) (wt : List String) (hW : cs.rotate idx = w0 :: wt) :
    cs.rotate ((idx + 1) % cs.length) = wt ++ [w0] := by
  rw [List.rotate_mod]
  have hr : cs.rotate (idx + 1) = (cs.rotate idx).rotate 1 := by
    rw [List.rotate_rotate]
  rw [hr, hW, List.rotate_cons_succ, List.rotate_zero]

theorem getNextLoop_spec (cs : List String) (f : Finset String) :
    ∀ (fuel idx : Nat), idx < cs.length → fuel ≤ cs.length →
    ((((cs.rotate idx).take fuel).filter (fun c => c ∉ f) = [] →
        (getNextLoop cs f idx fuel).1 = none)
    ∧ (∀ c tl, ((cs.rotate idx).take fuel).filter (fun c => c ∉ f) = c :: tl →
        ∃ j, j < fuel ∧ (∀ k, k < j → (cs.rotate idx).getD k "" ∈ f)
          ∧ (cs.rotate idx).getD j "" = c ∧ c ∉ f
          ∧ getNextLoop cs f idx fuel = (some c, (idx + j + 1) % cs.length))) := by
  intro fuel
  induction fuel with
  | zero =>
    intro idx hidx hfuel
    constructor
    · intro _
      rfl
    · intro c tl habs
      simp at habs
  | succ fuel ih =>
    intro idx hidx hfuel
    have hn : 0 < cs.length := Nat.lt_of_le_of_lt (Nat.zero_le idx) hidx
    obtain ⟨w0, wt, hW⟩ : ∃ w0 wt, cs.rotate idx = w0 :: wt := by
      cases hW : cs.rotate idx with
      | nil =>
        exfalso
        have hlr := List.length_rotate cs idx
        rw [hW] at hlr
        simp at hlr
        omega
      | cons a b => exact ⟨a, b, rfl⟩
    have hw0 : w0 = cs.getD idx "" := rotate_head cs idx hidx w0 wt hW
    have hwtlen : wt.length = cs.length - 1 := by
      have hlr := List.length_rotate cs idx
      rw [hW] at hlr
      simp at hlr
      omega
    by_cases hmem : cs.getD idx "" ∈ f
    · have hloop : getNextLoop cs f idx (fuel + 1) =
          getNextLoop cs f ((idx + 1) % cs.length) fuel := by
        simp only [getNextLoop, if_pos hmem]
      have hidx' : (idx + 1) % cs.length < cs.length := Nat.mod_lt _ hn
      have hW' : cs.rotate ((idx + 1) % cs.length) = wt ++ [w0] :=
        rotate_step cs idx w0 wt hW
      have hfuel' : fuel ≤ cs.length := Nat.le_of_succ_le hfuel
      have htake : (cs.rotate ((idx + 1) % cs.length)).take fuel = wt.take fuel := by
        rw [hW']
        exact List.take_append_of_le_length (by omega)
      have hw0f : w0 ∈ f := by
        rw [hw0]
        exact hmem
      have hfilter : ((cs.rotate idx).take (fuel + 1)).filter (fun c => c ∉ f) =
          (wt.take fuel).filter (fun c => c ∉ f) := by
        rw [hW, List.take_succ_cons, List.filter_cons]
        simp [hw0f]
      constructor
      · intro hnil
        rw [hfilter] at hnil
        rw [hloop]
        exact (ih ((idx + 1) % cs.length) hidx' hfuel').1 (by rw [htake]; exact hnil)
      · intro c tl hcons
        rw [hfilter] at hcons
        obtain ⟨j', hj', hpre, hgetj, hcf, hloopval⟩ :=
          (ih ((idx + 1) % cs.length) hidx' hfuel').2 c tl (by rw [htake]; exact hcons)
        refine ⟨j' + 1, by omega, ?_, ?_, hcf, ?_⟩
        · intro k hk
          cases k with
          | zero =>
            rw [hW, List.getD_cons_zero, hw0]
            exact hmem
          | succ k' =>
            rw [hW, List.getD_cons_succ]
            have hk' : k' < j' := by omega
            have hmem' := hpre k' hk'
            rw [hW', List.getD_append _ _ _ _ (by omega : k' < wt.length)] at hmem'
            exact hmem'
        · rw [hW, List.getD_cons_succ]
          rw [hW', List.getD_append _ _ _ _ (by omega : j' < wt.length)] at hgetj
          exact hgetj
        · have harith : ((idx + 1) % cs.length + j' + 1) % cs.length =
              (idx + (j' + 1) + 1) % cs.length := by
            rw [Nat.add_assoc ((idx + 1) % cs.length) j' 1, Nat.mod_add_mod]
            congr 1
            omega
          rw [hloop, hloopval, harith]
    · have hloop : getNextLoop cs f idx (fuel + 1) =
          (some (cs.getD idx ""), (idx + 1) % cs.length) := by
        simp only [getNextLoop, if_neg hmem]
      have hw0f : w0 ∉ f := by
        rw [hw0]
        exact hmem
      constructor
      · intro hnil
        rw [hW, List.take_succ_cons, List.filter_cons] at hnil
        simp [hw0f] at hnil
      · intro c tl hcons
        rw [hW, List.take_succ_cons, List.filter_cons] at hcons
        simp only [hw0f, decide_not, decide_eq_true_eq] at hcons
        rw [if_pos (by simp [hw0f])] at hcons
        injection hcons with hc htl
        refine ⟨0, by omega, by omega, ?_, ?_, ?_⟩
        · rw [hW, List.getD_cons_zero]
          exact hc
        · rw [← hc]
          exact hw0f
        · rw [hloop, ← hw0, hc]

theorem mem_take_imp (j : Nat) (l : List String) (x : String)
    (hx : x ∈ l.take j) : ∃ i, i < j ∧ l.getD i "" = x := by
  induction l generalizing j with
  | nil => simp at hx
  | cons a t ih =>
    cases j with
    | zero => simp at hx
    | succ j' =>
      rw [List.take_succ_cons] at hx
      rcases List.mem_cons.mp hx with rfl | hx'
      · exact ⟨0, by omega, List.getD_cons_zero⟩
      · obtain ⟨i, hi, hg⟩ := ih j' hx'
        exact ⟨i + 1, by omega, by rw [List.getD_cons_succ]; exact hg⟩

theorem acquire_step (s : CookieManager) (hne : s.cookies ≠ [])
    (hidx : s.current_index < s.cookies.length)
    (c : String) (tl : List String)
    (hE : (s.cookies.rotate s.current_index).filter
        (fun x => x ∉ s.failed_cookies) = c :: tl) :
    c ∉ s.failed_cookies
    ∧ ∃ s', get_next_cookie s = (some c, s')
      ∧ s'.cookies = s.cookies
      ∧ s'.failed_cookies = s.failed_cookies
      ∧ s'.current_index < s.cookies.length
      ∧ (s.cookies.rotate s'.current_index).filter
          (fun x => x ∉ s.failed_cookies) = tl ++ [c] := by
  have hn : 0 < s.cookies.length := List.length_pos.mpr hne
  have hWlen : (s.cookies.rotate s.current_index).length = s.cookies.length :=
    List.length_rotate _ _
  have htakefull : (s.cookies.rotate s.current_index).take s.cookies.length =
      s.cookies.rotate s.current_index := by
    rw [← hWlen]
    simp
  obtain ⟨j, hj, hpre, hgetj, hcf, hloopval⟩ :=
    (getNextLoop_spec s.cookies s.failed_cookies s.cookies.length
      s.current_index hidx le_rfl).2 c tl (by rw [htakefull]; exact hE)
  have hidx2 : (s.current_index + j + 1) % s.cookies.length < s.cookies.length :=
    Nat.mod_lt _ hn
  have hget : get_next_cookie s =
      (some c, { s with current_index := (s.current_index + j + 1) % s.cookies.length }) := by
    unfold get_next_cookie
    rw [if_neg (by simp [List.isEmpty_iff, hne]), hloopval]
  refine ⟨hcf, _, hget, rfl, rfl, hidx2, ?_⟩
  have hrot2 : s.cookies.rotate ((s.current_index + j + 1) % s.cookies.length) =
      (s.cookies.rotate s.current_index).rotate (j + 1) := by
    rw [List.rotate_mod, List.rotate_rotate]
    congr 1
  have hj1 : j + 1 ≤ (s.cookies.rotate s.current_index).length := by omega
  have hsplit : (s.cookies.rotate s.current_index).rotate (j + 1) =
      (s.cookies.rotate s.current_index).drop (j + 1) ++
      (s.cookies.rotate s.current_index).take (j + 1) :=
    List.rotate_eq_drop_append_take hj1
  have hjW : j < (s.cookies.rotate s.current_index).length := by omega
  have htakej : (s.cookies.rotate s.current_index).take (j + 1) =
      (s.cookies.rotate s.current_index).take j ++ [c] := by
    rw [← List.take_concat_get _ _ hjW, List.concat_eq_append]
    have hgj : (s.cookies.rotate s.current_index)[j] = c := by
      rw [← List.getD_eq_getElem _ "" hjW]
      exact hgetj
    rw [hgj]
  have hfiltake : ((s.cookies.rotate s.current_index).take j).filter
      (fun x => x ∉ s.failed_cookies) = [] := by
    rw [List.filter_eq_nil_iff]
    intro a ha
    obtain ⟨i, hi, hgi⟩ := mem_take_imp j _ a ha
    have := hpre i hi
    rw [hgi] at this
    simpa using this
  have hfil1 : ((s.cookies.rotate s.current_index).take (j + 1)).filter
      (fun x => x ∉ s.failed_cookies) = [c] := by
    rw [htakej, List.filter_append, hfiltake]
    simp [hcf]
  have hfildrop : ((s.cookies.rotate s.current_index).drop (j + 1)).filter
      (fun x => x ∉ s.failed_cookies) = tl := by
    have hTD := List.take_append_drop (j + 1) (s.cookies.rotate s.current_index)
    have hE2 : ((s.cookies.rotate s.current_index).take (j + 1) ++
        (s.cookies.rotate s.current_index).drop (j + 1)).filter
        (fun x => x ∉ s.failed_cookies) = c :: tl := by
      rw [hTD]; exact hE
    rw [List.filter_append, hfil1] at hE2
    injection hE2 with h1 h2
  rw [hrot2, hsplit, List.filter_append, hfildrop, hfil1]

theorem acquireList_spec : ∀ (m : Nat) (s : CookieManager),
    s.cookies ≠ [] → s.current_index < s.cookies.length →
    ∀ E', E' = (s.cookies.rotate s.current_index).filter
        (fun x => x ∉ s.failed_cookies) →
    m ≤ E'.length →
    acquireList s m = (E'.take m).map some := by
  intro m
  induction m with
  | zero =>
    intro s _ _ E' _ _
    rfl
  | succ m ih =>
    intro s hne hidx E' hE hm
    cases hEc : E' with
    | nil =>
      rw [hEc] at hm
      simp at hm
    | cons c tl =>
      obtain ⟨hcf, s', hget, hcook, hfail, hidx', hE''⟩ :=
        acquire_step s hne hidx c tl (hE.symm.trans hEc)
      have hstep : acquireList s (m + 1) = some c :: acquireList s' m := by
        simp only [acquireList, hget]
      rw [hstep]
      have hne' : s'.cookies ≠ [] := by rw [hcook]; exact hne
      have hidx2 : s'.current_index < s'.cookies.length := by rw [hcook]; exact hidx'
      have hE2 : tl ++ [c] = (s'.cookies.rotate s'.current_index).filter
          (fun x => x ∉ s'.failed_cookies) := by
        rw [hcook, hfail]
        exact hE''.symm
      have hEl : E'.length = tl.length + 1 := by rw [hEc]; simp
      have hlen : m ≤ (tl ++ [c]).length := by simp; omega
      rw [ih s' hne' hidx2 (tl ++ [c]) hE2 hlen]
      rw [List.take_succ_cons, List.map_cons]
      congr 2
      exact List.take_append_of_le_length (by omega)

theorem getNextLoop_mem (cs : List String) (f : Finset String) :
    ∀ (fuel idx : Nat) (c : String) (i2 : Nat), idx < cs.length →
    getNextLoop cs f idx fuel = (some c, i2) → c ∈ cs := by
  intro fuel
  induction fuel with
  | zero =>
    intro idx c i2 _ h
    injection h with h1 _
    cases h1
  | succ fuel ih =>
    intro idx c i2 hidx h
    simp only [getNextLoop] at h
    by_cases hmem : cs.getD idx "" ∈ f
    · rw [if_pos hmem] at h
      exact ih _ c i2 (Nat.mod_lt _ (by omega)) h
    · rw [if_neg hmem] at h
      injection h with h1 _
      injection h1 with h1
      rw [← h1]
      exact getD_mem_of_lt cs idx hidx

theorem getNextLoop_all_failed (cs : List String) (f : Finset String)
    (hall : ∀ c ∈ cs, c ∈ f) :
    ∀ (fuel idx : Nat), idx < cs.length →
    (getNextLoop cs f idx fuel).1 = none := by
  intro fuel
  induction fuel with
  | zero => intro idx _; rfl
  | succ fuel ih =>
    intro idx hidx
    have hmem : cs.getD idx "" ∈ f := hall _ (getD_mem_of_lt cs idx hidx)
    simp only [getNextLoop, if_pos hmem]
    exact ih _ (Nat.mod_lt _ (by omega))

theorem getNextLoop_none_first (cs : List String) (f : Finset String)
    (fuel idx : Nat) (h : (getNextLoop cs f idx (fuel + 1)).1 = none) :
    cs.getD idx "" ∈ f := by
  by_cases hmem : cs.getD idx "" ∈ f
  · exact hmem
  · exfalso
    simp only [getNextLoop, if_neg hmem] at h
    exact Option.noConfusion h

/-- C5: over a well-formed pool, `get_next_cookie` only ever returns
members of the pool, never returns a credential in the failed set when
an eligible one exists, and — for a duplicate-free pool — the first
`|eligible|` successive calls return each eligible credential exactly
once (a permutation of the eligible credentials) before any repeats. -/
theorem c5_round_robin :
    (∀ s : CookieManager, s.current_index < s.cookies.length →
        ∀ c, (get_next_cookie s).1 = some c → c ∈ s.cookies)
    ∧ (∀ s : CookieManager, s.current_index < s.cookies.length →
        (∃ c ∈ s.cookies, c ∉ s.failed_cookies) →
        ∀ c, (get_next_cookie s).1 = some c → c ∉ s.failed_cookies)
    ∧ (∀ s : CookieManager, s.cookies ≠ [] →
        s.current_index < s.cookies.length → s.cookies.Nodup →
        ∀ E, E = s.cookies.filter (fun c => c ∉ s.failed_cookies) → E ≠ [] →
        ∃ E' : List String, acquireList s E.length = E'.map some
          ∧ E'.Perm E ∧ E'.Nodup) := by
  refine ⟨?_, ?_, ?_⟩
  · intro s hidx c hc
    have hne : s.cookies ≠ [] := by
      intro h
      rw [h] at hidx
      simp at hidx
    unfold get_next_cookie at hc
    rw [if_neg (by simp [List.isEmpty_iff, hne])] at hc
    rcases hl : getNextLoop s.cookies s.failed_cookies s.current_index
        s.cookies.length with ⟨r, i2⟩
    rw [hl] at hc
    cases r with
    | some c' =>
      simp only at hc
      injection hc with hc
      rw [← hc]
      exact getNextLoop_mem s.cookies s.failed_cookies s.cookies.length
        s.current_index c' i2 hidx hl
    | none =>
      by_cases hf : s.failed_cookies ≠ ∅
      · simp only [if_pos hf] at hc
        injection hc with hc
        rw [← hc]
        cases hcs : s.cookies with
        | nil => exact absurd hcs hne
        | cons a t => exact List.mem_cons_self _ _
      · simp only [if_neg hf] at hc
        cases hc
  · intro s hidx hex c hc
    have hne : s.cookies ≠ [] := by
      intro h
      rw [h] at hidx
      simp at hidx
    obtain ⟨c0, hc0m, hc0f⟩ := hex
    have hc0r : c0 ∈ s.cookies.rotate s.current_index :=
      (List.mem_rotate).mpr hc0m
    cases hEc : (s.cookies.rotate s.current_index).filter
        (fun x => x ∉ s.failed_cookies) with
    | nil =>
      exfalso
      rw [List.filter_eq_nil_iff] at hEc
      have hmem := hEc c0 hc0r
      simp at hmem
      exact hc0f hmem
    | cons c1 tl =>
      obtain ⟨hcf, s', hget, _, _, _, _⟩ := acquire_step s hne hidx c1 tl hEc
      rw [hget] at hc
      simp only at hc
      injection hc with hc
      rw [← hc]
      exact hcf
  · intro s hne hidx hnodup E hE hEne
    have hperm : ((s.cookies.rotate s.current_index).filter
        (fun x => x ∉ s.failed_cookies)).Perm E := by
      rw [hE]
      exact (List.rotate_perm s.cookies s.current_index).filter _
    refine ⟨(s.cookies.rotate s.current_index).filter
        (fun x => x ∉ s.failed_cookies), ?_, hperm, ?_⟩
    · have hlen : E.length = ((s.cookies.rotate s.current_index).filter
          (fun x => x ∉ s.failed_cookies)).length := hperm.length_eq.symm
      rw [hlen]
      rw [acquireList_spec _ s hne hidx _ rfl le_rfl]
      rw [List.take_length]
    · exact (hperm.nodup_iff).mpr (by rw [hE] at hEne ⊢; exact hnodup.filter _)

/-- C5 witness: pool `["a", "b", "c"]` with `"b"` failed and cursor 0:
two successive calls return `["a", "c"]` — every eligible credential
exactly once, no failed credential, nothing outside the pool. -/
theorem c5_witness :
    List.filter (fun c => c ∉ ({"b"} : Finset String)) ["a", "b", "c"] = ["a", "c"]
    ∧ (∃ E' : List String, acquireList ⟨["a", "b", "c"], 0, {"b"}⟩ 2 = E'.map some
        ∧ E'.Perm ["a", "c"] ∧ E'.Nodup)
    ∧ (∀ c, (get_next_cookie ⟨["a", "b", "c"], 0, {"b"}⟩).1 = some c →
        c ∉ ({"b"} : Finset String)) := by
  refine ⟨by decide, ?_, ?_⟩
  · exact c5_round_robin.2.2 ⟨["a", "b", "c"], 0, {"b"}⟩ (by decide) (by decide)
      (by decide) ["a", "c"] (by decide) (by decide)
  · intro c hc
    exact c5_round_robin.2.1 ⟨["a", "b", "c"], 0, {"b"}⟩ (by decide)
      ⟨"a", by decide, by decide⟩ c hc

/-- C6: when every pool credential is in the failed set, the next call
clears the failed set entirely and returns the first credential of the
sequence; and `get_next_cookie` returns `none` exactly when the pool is
empty. -/
theorem c6_fail_open :
    (∀ s : CookieManager, s.cookies ≠ [] → s.current_index < s.cookies.length →
        (∀ c ∈ s.cookies, c ∈ s.failed_cookies) →
        (get_next_cookie s).1 = some (s.cookies.headD "")
        ∧ (get_next_cookie s).2.failed_cookies = ∅)
    ∧ (∀ s : CookieManager, ((get_next_cookie s).1 = none ↔ s.cookies = [])) := by
  constructor
  · intro s hne hidx hall
    have hnone := getNextLoop_all_failed s.cookies s.failed_cookies hall
      s.cookies.length s.current_index hidx
    have hf : s.failed_cookies ≠ ∅ := by
      cases hcs : s.cookies with
      | nil => exact absurd hcs hne
      | cons a t =>
        exact Finset.ne_empty_of_mem (hall a (by rw [hcs]; exact List.mem_cons_self _ _))
    unfold get_next_cookie
    rw [if_neg (by simp [List.isEmpty_iff, hne])]
    rcases hl : getNextLoop s.cookies s.failed_cookies s.current_index
        s.cookies.length with ⟨r, i2⟩
    rw [hl] at hnone
    cases r with
    | some c' => cases hnone
    | none => simp [if_pos hf]
  · intro s
    constructor
    · intro hc
      by_contra hne
      have hn : 0 < s.cookies.length := List.length_pos.mpr hne
      obtain ⟨k, hk⟩ : ∃ k, s.cookies.length = k + 1 := ⟨s.cookies.length - 1, by omega⟩
      unfold get_next_cookie at hc
      rw [if_neg (by simp [List.isEmpty_iff, hne])] at hc
      rcases hl : getNextLoop s.cookies s.failed_cookies s.current_index
          s.cookies.length with ⟨r, i2⟩
      rw [hl] at hc
      cases r with
      | some c' => cases hc
      | none =>
        have hfirst : s.cookies.getD s.current_index "" ∈ s.failed_cookies := by
          apply getNextLoop_none_first s.cookies s.failed_cookies k s.current_index
          rw [← hk, hl]
        have hf : s.failed_cookies ≠ ∅ := Finset.ne_empty_of_mem hfirst
        simp only [if_pos hf] at hc
        cases hc
    · intro hc
      unfold get_next_cookie
      rw [if_pos (by simp [hc])]

/-- C6 witness: pool `["a", "b"]` with both credentials failed: the
next call clears the failed set and returns `"a"`, the first
credential. -/
theorem c6_witness :
    (∀ c ∈ ["a", "b"], c ∈ ({"a", "b"} : Finset String))
    ∧ (get_next_cookie ⟨["a", "b"], 0, {"a", "b"}⟩).1 = some "a"
    ∧ (get_next_cookie ⟨["a", "b"], 0, {"a", "b"}⟩).2.failed_cookies = ∅ := by
  refine ⟨by decide, ?_, ?_⟩
  · exact (c6_fail_open.1 ⟨["a", "b"], 0, {"a", "b"}⟩ (by decide) (by decide)
      (by decide)).1
  · exact (c6_fail_open.1 ⟨["a", "b"], 0, {"a", "b"}⟩ (by decide) (by decide)
      (by decide)).2
